import Mathlib

/-!
Verification of the incremental module dependency graph engine of the metro
bundler (`traverseDependencies` / `initialTraverseDependencies` / `reorderGraph`).

The repository ships the Jest test module for the engine (fixtures, collaborator
mocks and expected observables) together with `DependencyGraph.js`.  The engine
module itself (`traverseDependencies.js`) is not part of the shipped sources, so
the engine is modelled here from the specification (sections 3 to 4.6), while the
collaborator contract (`resolve` / `transform`), the fixture world and the test
scenarios are translated directly from the test module.

Conventions: JavaScript `Map` objects are modelled as insertion-ordered
association lists, `Set` objects as insertion-ordered duplicate-free lists, and
promise failure as an `Except` error value.  All engine recursion is fuelled;
theorems about runs are stated for runs that return a value.
-/

namespace Metro

abbrev Path := String
abbrev Name := String

/-- Lookup in an insertion-ordered association list (JavaScript `Map.get`). -/
def jsGet {α : Type} : List (String × α) → String → Option α
  | [], _ => none
  | (k, v) :: rest, key => if k = key then some v else jsGet rest key

/-- Update in an insertion-ordered association list (JavaScript `Map.set`):
an existing key keeps its insertion position, a new key is appended. -/
def jsSet {α : Type} : List (String × α) → String → α → List (String × α)
  | [], key, v => [(key, v)]
  | (k, w) :: rest, key, v =>
    if k = key then (k, v) :: rest else (k, w) :: jsSet rest key v

/-- Deletion from an insertion-ordered association list (JavaScript
`Map.delete`). -/
def jsDelete {α : Type} : List (String × α) → String → List (String × α)
  | [], _ => []
  | (k, v) :: rest, key =>
    if k = key then jsDelete rest key else (k, v) :: jsDelete rest key

/-- Insertion into an insertion-ordered duplicate-free list (JavaScript
`Set.add`). -/
def jsSetAdd (s : List String) (p : String) : List String :=
  if p ∈ s then s else s ++ [p]

/-- The opaque transformer artifact (`output`), stored verbatim. -/
structure Output where
  code : String
deriving DecidableEq, Repr

/-- Module record: path, ordered named dependency list, inverse-dependency set
and the opaque transform output (spec section 3). -/
structure ModuleData where
  path : Path
  dependencies : List (Name × Path)
  inverseDependencies : List Path
  output : Output
deriving DecidableEq, Repr

/-- Graph store: insertion-ordered mapping from path to module record plus the
ordered entry-point list (spec section 3). -/
structure Graph where
  dependencies : List (Path × ModuleData)
  entryPoints : List Path
deriving DecidableEq, Repr

/-- Collaborator world, translated from the test module mocks:
`tree` is `mockedDependencyTree` (path to ordered named dependency list) and
`modules` is `mockedDependencies` (the set of existing modules). -/
structure World where
  tree : List (Path × List (Name × Path))
  modules : List Path
deriving DecidableEq, Repr

/-- Failure of a traversal: a collaborator resolution error, or fuel
exhaustion of the fuelled model. -/
inductive Fail where
  | resolution (fromPath : Path) (name : Name)
  | fuel
deriving DecidableEq, Repr

/-- The constant output produced by the mocked `transform`. -/
def defaultOutput : Output := ⟨"// code"⟩

/-- The mocked `transform` collaborator: returns the ordered dependency names
recorded for the path (or the empty list) plus the opaque output. -/
def transform (w : World) (p : Path) : List Name × Output :=
  match jsGet w.tree p with
  | some deps => (deps.map (fun d => d.1), defaultOutput)
  | none => ([], defaultOutput)

/-- The mocked `resolve` collaborator: finds the named dependency of
`fromPath` in the tree and fails when it is missing or when the target module
does not exist. -/
def resolve (w : World) (fromPath : Path) (name : Name) : Except Fail Path :=
  match ((jsGet w.tree fromPath).getD []).find? (fun d => d.1 = name) with
  | some d =>
    if d.2 ∈ w.modules then .ok d.2 else .error (.resolution fromPath name)
  | none => .error (.resolution fromPath name)

/-- Rebuild of a JavaScript `Map` from a pair list: duplicate keys keep the
first insertion position and the last value. -/
def jsMapOfList (l : List (Name × Path)) : List (Name × Path) :=
  l.foldl (fun m e => jsSet m e.1 e.2) []

/-- Shallow resolver adaptor (spec section 4.3): `transform` then `resolve`
of every produced name, in textual order; any failure propagates. -/
def resolveDependencies (w : World) (p : Path) :
    Except Fail (List (Name × Path) × Output) := do
  let t := transform w p
  let pairs ← t.1.mapM (fun n => do
    let q ← resolve w p n
    pure (n, q))
  pure (jsMapOfList pairs, t.2)

/-- Helper: deletion never lengthens an association list. -/
theorem jsDelete_length_le {α : Type} (l : List (String × α)) (key : String) :
    (jsDelete l key).length ≤ l.length := by
  induction l with
  | nil => simp [jsDelete]
  | cons e rest ih =>
    obtain ⟨k, v⟩ := e
    by_cases hk : k = key
    · simp only [jsDelete, hk, if_pos]
      exact Nat.le_trans ih (Nat.le_succ _)
    · simp only [jsDelete, hk, if_neg, not_false_iff, List.length_cons]
      exact Nat.succ_le_succ ih

/-- Helper towards `reorderGraph` termination: deleting a present key makes
the list strictly shorter. -/
theorem jsDelete_length_lt {α : Type} {l : List (String × α)} {key : String}
    {v : α} (h : jsGet l key = some v) :
    (jsDelete l key).length < l.length := by
  induction l with
  | nil => simp [jsGet] at h
  | cons e rest ih =>
    obtain ⟨k, w⟩ := e
    by_cases hk : k = key
    · simp only [jsDelete, hk, if_pos]
      exact Nat.lt_succ_of_le (jsDelete_length_le rest key)
    · simp only [jsGet, hk, if_neg, not_false_iff] at h
      simp only [jsDelete, hk, if_neg, not_false_iff, List.length_cons]
      exact Nat.succ_lt_succ (ih h)

/-- Depth-first pre-order collection used by `reorderGraph`: pops the work
stack, skips paths that are no longer available (already visited or absent),
and on a visit removes the record from the available list and pushes its
children, in dependency order, on top of the stack.  Visited order is the
depth-first pre-order from the initial stack. -/
def dfsAux (avail : List (Path × ModuleData)) (stack : List Path) :
    List (Path × ModuleData) :=
  match stack with
  | [] => []
  | p :: rest =>
    match h : jsGet avail p with
    | none => dfsAux avail rest
    | some m =>
      (p, m) :: dfsAux (jsDelete avail p) (m.dependencies.map (fun e => e.2) ++ rest)
termination_by (avail.length, stack.length)
decreasing_by
  · apply Prod.Lex.right
    simp
  · exact Prod.Lex.left _ _ (jsDelete_length_lt h)

/-- Fuelled mirror of `dfsAux` used for computation (the fuelled recursion
is structural, hence kernel-evaluable); with sufficient fuel it agrees with
`dfsAux`. -/
def dfsFuel : Nat → List (Path × ModuleData) → List Path → List (Path × ModuleData)
  | 0, _, _ => []
  | fuel + 1, avail, stack =>
    match stack with
    | [] => []
    | p :: rest =>
      match jsGet avail p with
      | none => dfsFuel fuel avail rest
      | some m =>
        (p, m) :: dfsFuel fuel (jsDelete avail p) (m.dependencies.map (fun e => e.2) ++ rest)

/-- Total dependency-list length of an availability list, part of the fuel
bound of the depth-first pass. -/
def sumDeps (avail : List (Path × ModuleData)) : Nat :=
  (avail.map (fun e => e.2.dependencies.length)).sum

/-- Fuel amply sufficient for the depth-first pass over a given graph. -/
def dfsBound (g : Graph) : Nat :=
  g.entryPoints.length + g.dependencies.length + sumDeps g.dependencies + 1

/-- Modelled from the spec: `reorderGraph` (section 4.5) rewrites the
insertion order of `graph.dependencies` to the depth-first pre-order
visitation starting at `entryPoints` in entry-point order, visiting each
record's children in its `dependencies` order, skipping already-visited
records and dropping records unreachable from every entry.  The operation
itself is absent from the shipped sources; only its test module is. -/
def reorderGraph (g : Graph) : Graph :=
  { g with dependencies := dfsFuel (dfsBound g) g.dependencies g.entryPoints }

/-- Delta accumulated by a traversal call: newly created paths, re-transformed
dirty paths and released paths (spec section 4.4.1). -/
structure Delta where
  added : List Path
  modified : List Path
  deleted : List Path
deriving DecidableEq, Repr

/-- Progress channel state (spec section 4.6): the two counters and the
ordered trace of `(finishedCount, discoveredCount)` pairs passed to the sink. -/
structure Prog where
  finishedCount : Nat
  discoveredCount : Nat
  trace : List (Nat × Nat)
deriving DecidableEq, Repr

/-- Emission on module discovery: the discovered counter is bumped and the
sink observes the counter pair. -/
def emitDisc (p : Prog) : Prog :=
  { finishedCount := p.finishedCount
    discoveredCount := p.discoveredCount + 1
    trace := p.trace ++ [(p.finishedCount, p.discoveredCount + 1)] }

/-- Emission on module finish: the finished counter is bumped and the sink
observes the counter pair. -/
def emitFin (p : Prog) : Prog :=
  { finishedCount := p.finishedCount + 1
    discoveredCount := p.discoveredCount
    trace := p.trace ++ [(p.finishedCount + 1, p.discoveredCount)] }

/-- Full engine state threaded through a traversal call. -/
structure TState where
  graph : Graph
  delta : Delta
  prog : Prog
deriving DecidableEq, Repr

/-- Record replacement keeping the insertion position. -/
def setRecord (g : Graph) (p : Path) (m : ModuleData) : Graph :=
  { g with dependencies := jsSet g.dependencies p m }

/-- Fresh module record: empty dependency list, empty inverse set
(spec section 4.1). -/
def emptyModule (p : Path) : ModuleData :=
  { path := p, dependencies := [], inverseDependencies := [], output := defaultOutput }

/-- Record creation on first discovery; a no-op when the path is present. -/
def createRecord (g : Graph) (p : Path) : Graph :=
  match jsGet g.dependencies p with
  | some _ => g
  | none => { g with dependencies := g.dependencies ++ [(p, emptyModule p)] }

/-- State-level record replacement. -/
def setRecord' (st : TState) (p : Path) (m : ModuleData) : TState :=
  { st with graph := setRecord st.graph p m }

/-- Modelled from the spec: edge removal with reference-counted release
(spec sections 4.4.1 step 5 and 4.4.2).  The parent path is removed from the
target's inverse set; when the set becomes empty and the target is not an
entry point the target is released: it leaves the store and the delta books
it as deleted (and no longer added or modified), and its outbound edges are
removed recursively.  Cycles terminate because the record leaves the store
before the recursion. -/
def removeEdgeF : Nat → TState → Path → Path → Except Fail TState
  | 0, _, _, _ => .error .fuel
  | fuel + 1, st, parentPath, target =>
    match jsGet st.graph.dependencies target with
    | none => .ok st
    | some m =>
      let inv := m.inverseDependencies.erase parentPath
      if inv = [] ∧ ¬ target ∈ st.graph.entryPoints then
        let st1 : TState :=
          { graph := { st.graph with dependencies := jsDelete st.graph.dependencies target }
            delta := { added := st.delta.added.erase target
                       modified := st.delta.modified.erase target
                       deleted := jsSetAdd st.delta.deleted target }
            prog := st.prog }
        (m.dependencies.map (fun e => e.2)).foldlM
          (fun s q => removeEdgeF fuel s target q) st1
      else
        .ok (setRecord' st target { m with inverseDependencies := inv })

/-- Modelled from the spec: replacement of a re-transformed module's stored
dependency list and output (spec section 4.4.1 step 6); the record keeps its
position and its current inverse set. -/
def replaceRecord (st : TState) (p : Path) (deps : List (Name × Path))
    (out : Output) : TState :=
  match jsGet st.graph.dependencies p with
  | none => st
  | some m => setRecord' st p { m with dependencies := deps, output := out }

mutual

/-- Modelled from the spec: processing of one module (spec section 4.4.1
steps 2 to 6, absent from the shipped sources).  The module is re-transformed
and its new ordered dependency list resolved; new edges (keyed by the
name-path pair, section 4.4.3) are added first, expanding unknown targets
recursively; edges whose pair disappeared are then removed, with a removal
skipped while another entry of the new list still targets the same path so
that aliases do not collapse; finally the stored list is replaced wholesale,
preserving the new textual order. -/
def processModuleF (fuel : Nat) (w : World) (st : TState) (p : Path) :
    Except Fail TState :=
  match fuel with
  | 0 => .error .fuel
  | fuel + 1 => do
    let rd ← resolveDependencies w p
    let old := ((jsGet st.graph.dependencies p).map (fun m => m.dependencies)).getD []
    let toAdd := rd.1.filter (fun e => ¬ e ∈ old)
    let st1 ← toAdd.foldlM (fun s e => addDependencyF fuel w s p e.2) st
    let newTargets := rd.1.map (fun e => e.2)
    let toRemove := (old.filter (fun e => ¬ e ∈ rd.1)).filter
      (fun e => ¬ e.2 ∈ newTargets)
    let st2 ← toRemove.foldlM (fun s e => removeEdgeF fuel s p e.2) st1
    .ok (replaceRecord st2 p rd.1 rd.2)

/-- Modelled from the spec: edge addition (spec section 4.4.1 step 4).  An
existing target only gains the parent in its inverse set; an unknown target
is created (entering the store before its own expansion, which makes cycles
terminate), booked as discovered, and expanded recursively, with the
discovery and finish progress events around the expansion. -/
def addDependencyF (fuel : Nat) (w : World) (st : TState)
    (parentPath target : Path) : Except Fail TState :=
  match fuel with
  | 0 => .error .fuel
  | fuel + 1 =>
    match jsGet st.graph.dependencies target with
    | some m =>
      .ok (setRecord' st target
        { m with inverseDependencies := jsSetAdd m.inverseDependencies parentPath })
    | none => do
      let m0 : ModuleData :=
        { path := target, dependencies := [], inverseDependencies := [parentPath]
          output := defaultOutput }
      let st1 : TState :=
        { graph := { st.graph with dependencies := st.graph.dependencies ++ [(target, m0)] }
          delta := { st.delta with added := jsSetAdd st.delta.added target
                                   deleted := st.delta.deleted.erase target }
          prog := emitDisc st.prog }
      let st2 ← processModuleF fuel w st1 target
      .ok { st2 with prog := emitFin st2.prog }

end

/-- Modelled from the spec: the dirty-path loop of `traverseDependencies`
(spec section 4.4.1).  A dirty path that is neither present nor an entry
point is a stale notification and is skipped; a missing entry point is
created first; otherwise the path is booked as modified and re-processed,
with discovery and finish progress events around the processing. -/
def traverseListF (fuel : Nat) (w : World) : TState → List Path → Except Fail TState
  | st, [] => .ok st
  | st, p :: rest =>
    match jsGet st.graph.dependencies p with
    | some _ => do
      let st1 : TState :=
        { st with delta := { st.delta with modified := jsSetAdd st.delta.modified p }
                  prog := emitDisc st.prog }
      let st2 ← processModuleF fuel w st1 p
      traverseListF fuel w { st2 with prog := emitFin st2.prog } rest
    | none =>
      if p ∈ st.graph.entryPoints then do
        let st1 : TState :=
          { graph := createRecord st.graph p
            delta := { st.delta with modified := jsSetAdd st.delta.modified p }
            prog := emitDisc st.prog }
        let st2 ← processModuleF fuel w st1 p
        traverseListF fuel w { st2 with prog := emitFin st2.prog } rest
      else
        traverseListF fuel w st rest

/-- Result of one public traversal call: the graph after the call, the
ordered `added` and `deleted` observables and the progress trace. -/
structure TraverseResult where
  graph : Graph
  added : List Path
  deleted : List Path
  trace : List (Nat × Nat)
deriving DecidableEq, Repr

/-- Engine state at the start of a call. -/
def emptyTState (g : Graph) : TState :=
  { graph := g, delta := ⟨[], [], []⟩, prog := ⟨0, 0, []⟩ }

/-- Modelled from the spec: `traverseDependencies` (spec sections 4.4.1 and
4.4.5, absent from the shipped sources).  Each dirty path is processed in
caller order; the returned `added` sequence lists every newly discovered
module, in discovery order, before every surviving re-transformed dirty
module, in dirty order. -/
def traverseDependencies (fuel : Nat) (w : World) (paths : List Path)
    (g : Graph) : Except Fail TraverseResult :=
  match traverseListF fuel w (emptyTState g) paths with
  | .ok st =>
    .ok { graph := st.graph
          added := st.delta.added ++
            st.delta.modified.filter (fun q => ¬ q ∈ st.delta.added)
          deleted := st.delta.deleted
          trace := st.prog.trace }
  | .error e => .error e

/-- Modelled from the spec: one call of `traverseDependencies` seen from the
caller (spec section 4.4.4): on success the caller holds the new graph, on
failure the engine has not advanced the caller-visible graph past the
partially-applied batch, so a retry observes the same inputs. -/
def traverseCall (fuel : Nat) (w : World) (paths : List Path) (g : Graph) :
    Graph × Except Fail TraverseResult :=
  match traverseDependencies fuel w paths g with
  | .ok r => (r.graph, .ok r)
  | .error e => (g, .error e)

/-- Modelled from the spec: `initialTraverseDependencies` (spec section
4.4.1, absent from the shipped sources).  Entry records are created in entry
order, every entry is traversed as dirty, and the store is rewritten to the
canonical depth-first order, which makes the key order and the returned
`added` order deterministic (spec section 4.5); `deleted` is empty.  On
failure the caller-visible graph is left as it was: empty. -/
def initialTraverseDependencies (fuel : Nat) (w : World) (g : Graph) :
    Graph × Except Fail TraverseResult :=
  match traverseListF fuel w (emptyTState (g.entryPoints.foldl createRecord g))
      g.entryPoints with
  | .ok st =>
    let g2 := reorderGraph st.graph
    (g2, .ok { graph := g2
               added := g2.dependencies.map (fun e => e.1)
               deleted := []
               trace := st.prog.trace })
  | .error e => (g, .error e)

/-- Test harness state, translated from the test module: the collaborator
world plus the accumulated dirty-file set `files`. -/
structure TestEnv where
  world : World
  files : List Path
deriving DecidableEq, Repr

/-- Helper for the default dependency name of the test harness:
`dependencyPath.replace(slash, empty)` removes the first slash character. -/
def dropFirstSlash (chars : List Char) : List Char :=
  match chars with
  | [] => []
  | c :: rest => if c = '/' then rest else c :: dropFirstSlash rest

/-- Default dependency name derived from a dependency path (test harness). -/
def autoName (depPath : Path) : Name :=
  String.mk (dropFirstSlash depPath.toList)

/-- JavaScript `Array.splice(position, 0, x)`: insertion at an index, with an
out-of-range index appending. -/
def spliceIn {α : Type} : List α → Nat → α → List α
  | l, 0, x => x :: l
  | [], _ + 1, x => [x]
  | a :: l, n + 1, x => a :: spliceIn l n x

/-- Removal of the first dependency entry with the given target path
(test harness `removeDependency`: `findIndex` by path then `splice`). -/
def removeFirstTarget : List (Name × Path) → Path → List (Name × Path)
  | [], _ => []
  | d :: rest, q => if d.2 = q then rest else d :: removeFirstTarget rest q

/-- Test action `createFile`. -/
def createFile (e : TestEnv) (p : Path) : TestEnv :=
  { e with world := { tree := jsSet e.world.tree p []
                      modules := jsSetAdd e.world.modules p } }

/-- Test action `deleteFile`. -/
def deleteFile (e : TestEnv) (p : Path) : TestEnv :=
  { e with world := { e.world with modules := e.world.modules.erase p } }

/-- Test action `moveFile`. -/
def moveFile (e : TestEnv) (fromPath toPath : Path) : TestEnv :=
  deleteFile (createFile e toPath) fromPath

/-- Test action `modifyFile`. -/
def modifyFile (e : TestEnv) (p : Path) : TestEnv :=
  if p ∈ e.world.modules then { e with files := jsSetAdd e.files p } else e

/-- Test action `addDependency`. -/
def addDependency (e : TestEnv) (p depPath : Path) (position : Option Nat)
    (name : Option Name) : TestEnv :=
  let n := name.getD (autoName depPath)
  let deps := (jsGet e.world.tree p).getD []
  let deps :=
    match position with
    | none => deps ++ [(n, depPath)]
    | some i => spliceIn deps i (n, depPath)
  { world := { tree := jsSet e.world.tree p deps
               modules := jsSetAdd e.world.modules depPath }
    files := jsSetAdd e.files p }

/-- Test action `removeDependency`. -/
def removeDependency (e : TestEnv) (p depPath : Path) : TestEnv :=
  let deps := (jsGet e.world.tree p).getD []
  { e with world := { e.world with tree := jsSet e.world.tree p (removeFirstTarget deps depPath) }
           files := jsSetAdd e.files p }

/-- The shared fixture of the test module: entry `/bundle` depends on `/foo`;
`/foo` depends on `/bar` then `/baz`; the dirty set is then cleared. -/
def baseEnv : TestEnv :=
  let e : TestEnv := ⟨⟨[], []⟩, []⟩
  let e := createFile e "/bundle"
  let e := createFile e "/foo"
  let e := createFile e "/bar"
  let e := createFile e "/baz"
  let e := addDependency e "/bundle" "/foo" none none
  let e := addDependency e "/foo" "/bar" none none
  let e := addDependency e "/foo" "/baz" none none
  { e with files := [] }

/-- The fixture graph before the initial traversal. -/
def baseGraph : Graph := { dependencies := [], entryPoints := ["/bundle"] }

/-- Fuel amply sufficient for every fixture scenario. -/
def fuel0 : Nat := 100

/-- The fixture graph after the initial traversal. -/
def initialGraph : Graph :=
  (initialTraverseDependencies fuel0 baseEnv.world baseGraph).1

/-- Work item of the scheduled engine: the reified continuation of the
serialized traversal, in slot order (spec sections 4.5 and 9): a dirty path
to process, a module whose shallow-resolution result must be consumed next,
one pending edge addition of a consumed module, the pending removals and
record replacement of a consumed module, and a finish progress emission. -/
inductive Frame where
  | dirty (p : Path)
  | consume (p : Path)
  | addE (parentPath target : Path)
  | rmv (p : Path) (removals : List (Name × Path)) (newDeps : List (Name × Path)) (out : Output)
  | fin
deriving DecidableEq, Repr

/-- Modelled from the spec: state of the concurrently-completing traversal
(spec section 5).  The serialized engine state `ts` and its slot-ordered
continuation `stack` are the single mutation context; `flight` holds the
paths whose shallow resolution has been requested and is still in flight,
`buf` parks completed results until their slot consumes them, and `log`
records the completion order the schedule chose. -/
structure MState where
  ts : TState
  stack : List Frame
  flight : List Path
  buf : List (Path × (List (Name × Path) × Output))
  log : List Path
deriving DecidableEq, Repr

/-- Modelled from the spec: the dirty-loop step of the scheduled engine,
mirroring the dirty-path dispatch of `traverseDependencies` (spec section
4.4.1): a stale dirty path is skipped; otherwise the path is booked as
re-transformed, discovery is emitted, and its consumption and finish are
scheduled. -/
def stepDirty (st : TState) (p : Path) : TState × List Frame :=
  match jsGet st.graph.dependencies p with
  | some _ =>
    ({ graph := st.graph
       delta := { added := st.delta.added
                  modified := jsSetAdd st.delta.modified p
                  deleted := st.delta.deleted }
       prog := emitDisc st.prog }, [Frame.consume p, Frame.fin])
  | none =>
    if p ∈ st.graph.entryPoints then
      ({ graph := createRecord st.graph p
         delta := { added := st.delta.added
                    modified := jsSetAdd st.delta.modified p
                    deleted := st.delta.deleted }
         prog := emitDisc st.prog }, [Frame.consume p, Frame.fin])
    else (st, [])

/-- Modelled from the spec: consumption of a module's shallow-resolution
result (spec section 4.4.1 steps 2 and 3): the stored list is diffed against
the fresh report by the name-path pair, the additions are scheduled in
textual order ahead of the removals and the record replacement. -/
def stepConsume (st : TState) (p : Path) (rd : List (Name × Path) × Output) :
    List Frame :=
  let old := ((jsGet st.graph.dependencies p).map (fun m => m.dependencies)).getD []
  let toAdd := rd.1.filter (fun e => ¬ e ∈ old)
  let newTargets := rd.1.map (fun e => e.2)
  let toRemove := (old.filter (fun e => ¬ e ∈ rd.1)).filter
    (fun e => ¬ e.2 ∈ newTargets)
  (toAdd.map (fun e => Frame.addE p e.2)) ++ [Frame.rmv p toRemove rd.1 rd.2]

/-- Modelled from the spec: prefetch at result consumption (spec section 9):
the shallow resolutions of the unknown new children are put in flight at
once, so several collaborator invocations run concurrently while their
results are consumed in slot order. -/
def prefetchConsume (st : TState) (buf : List (Path × (List (Name × Path) × Output)))
    (flight : List Path) (p : Path) (rd : List (Name × Path) × Output) : List Path :=
  let old := ((jsGet st.graph.dependencies p).map (fun m => m.dependencies)).getD []
  let cands := ((rd.1.filter (fun e => ¬ e ∈ old)).map (fun e => e.2)).filter
    (fun t => (jsGet st.graph.dependencies t).isNone && (jsGet buf t).isNone)
  cands.foldl jsSetAdd flight

/-- Request of one shallow resolution, a no-op when the result is already
completed or already in flight. -/
def requestAdd (flight : List Path)
    (buf : List (Path × (List (Name × Path) × Output))) (p : Path) : List Path :=
  if (jsGet buf p).isSome ∨ p ∈ flight then flight else flight ++ [p]

/-- Modelled from the spec: one edge addition of the scheduled engine (spec
section 4.4.1 step 4), identical to the sequential `addDependencyF` mutation:
a known target gains the parent in its inverse set; an unknown target is
created, booked as discovered, and its consumption and finish are scheduled
in its reserved slot. -/
def stepAddE (st : TState) (parentPath target : Path) : TState × List Frame :=
  match jsGet st.graph.dependencies target with
  | some m =>
    (setRecord' st target
      { m with inverseDependencies := jsSetAdd m.inverseDependencies parentPath }, [])
  | none =>
    ({ graph := { st.graph with dependencies := st.graph.dependencies ++
        [(target, { path := target, dependencies := []
                    inverseDependencies := [parentPath], output := defaultOutput })] }
       delta := { st.delta with added := jsSetAdd st.delta.added target
                                deleted := st.delta.deleted.erase target }
       prog := emitDisc st.prog }, [Frame.consume target, Frame.fin])

/-- Modelled from the spec: the removal-and-replacement tail of one module's
processing (spec section 4.4.1 steps 5 and 6), identical to the sequential
engine's: each disappeared pair is removed with reference-counted release,
then the stored list is replaced wholesale. -/
def stepRmv (fuel : Nat) (st : TState) (p : Path)
    (removals newDeps : List (Name × Path)) (out : Output) : Except Fail TState := do
  let st2 ← removals.foldlM (fun s e => removeEdgeF fuel s p e.2) st
  pure (replaceRecord st2 p newDeps out)

/-- The pure serialized engine over the reified continuation: every
consumption invokes the collaborators directly.  This is the slot-ordered
mutation sequence that the scheduled runs are proven to refine. -/
def runP (w : World) : Nat → TState × List Frame → Except Fail TState
  | 0, _ => .error .fuel
  | n + 1, (st, stack) =>
    match stack with
    | [] => .ok st
    | Frame.dirty p :: rest =>
      let s := stepDirty st p
      runP w n (s.1, s.2 ++ rest)
    | Frame.consume p :: rest =>
      match resolveDependencies w p with
      | .error e => .error e
      | .ok rd => runP w n (st, stepConsume st p rd ++ rest)
    | Frame.addE parentPath target :: rest =>
      let s := stepAddE st parentPath target
      runP w n (s.1, s.2 ++ rest)
    | Frame.rmv p removals newDeps out :: rest =>
      match stepRmv n st p removals newDeps out with
      | .error e => .error e
      | .ok st2 => runP w n (st2, rest)
    | Frame.fin :: rest =>
      runP w n ({ st with prog := emitFin st.prog }, rest)

/-- Modelled from the spec: the scheduled engine (spec section 5).  Several
shallow resolutions are in flight at once; whenever the slot-ordered
continuation needs a result that has not completed, the schedule chooses
which in-flight invocation completes next (an error surfaces at completion
and aborts the run, and in-flight results left over at quiescence are
discarded).  All graph, delta and progress mutations execute serialized, in
slot order, never at completion. -/
def runT (w : World) (sched : Nat → Nat) :
    Nat → MState → Except Fail (TState × List Path)
  | 0, _ => .error .fuel
  | n + 1, M =>
    match M.stack with
    | [] => .ok (M.ts, M.log)
    | Frame.dirty p :: rest =>
      let s := stepDirty M.ts p
      runT w sched n
        { ts := s.1, stack := s.2 ++ rest
          flight := if s.2.isEmpty then M.flight else requestAdd M.flight M.buf p
          buf := M.buf, log := M.log }
    | Frame.consume p :: rest =>
      match jsGet M.buf p with
      | some rd =>
        runT w sched n
          { ts := M.ts, stack := stepConsume M.ts p rd ++ rest
            flight := prefetchConsume M.ts M.buf M.flight p rd
            buf := jsDelete M.buf p, log := M.log }
      | none =>
        match M.flight with
        | [] => .error .fuel
        | q :: qs =>
          match resolveDependencies w ((q :: qs).getD (sched n % (q :: qs).length) q) with
          | .error e => .error e
          | .ok rd =>
            runT w sched n
              { ts := M.ts, stack := M.stack
                flight := (q :: qs).eraseIdx (sched n % (q :: qs).length)
                buf := jsSet M.buf ((q :: qs).getD (sched n % (q :: qs).length) q) rd
                log := M.log ++ [(q :: qs).getD (sched n % (q :: qs).length) q] }
    | Frame.addE parentPath target :: rest =>
      let s := stepAddE M.ts parentPath target
      runT w sched n
        { ts := s.1, stack := s.2 ++ rest
          flight := if s.2.isEmpty then M.flight else requestAdd M.flight M.buf target
          buf := M.buf, log := M.log }
    | Frame.rmv p removals newDeps out :: rest =>
      match stepRmv n M.ts p removals newDeps out with
      | .error e => .error e
      | .ok st2 =>
        runT w sched n
          { ts := st2, stack := rest, flight := M.flight, buf := M.buf, log := M.log }
    | Frame.fin :: rest =>
      runT w sched n
        { ts := { M.ts with prog := emitFin M.ts.prog }, stack := rest
          flight := M.flight, buf := M.buf, log := M.log }

/-- Scheduled-engine start state for one `traverse` call: the prior graph
and the caller's dirty list, nothing in flight. -/
def initM (g : Graph) (paths : List Path) : MState :=
  { ts := emptyTState g, stack := paths.map Frame.dirty, flight := [], buf := [], log := [] }

/-- Scheduled-engine start state for an initial traversal: entry records are
created in entry order and every entry is traversed as dirty. -/
def initMInitial (g : Graph) : MState :=
  initM (g.entryPoints.foldl createRecord g) g.entryPoints

/-- Validity of a completion buffer: every parked result is the
collaborator's answer for its path — completion order cannot alter the pure
`transform`/`resolve` results (spec section 5). -/
def BufOk (w : World) (buf : List (Path × (List (Name × Path) × Output))) : Prop :=
  ∀ p rd, jsGet buf p = some rd → resolveDependencies w p = .ok rd

/-- Decidable test that a batch removes no stored edge: for every dirty path
the pre-call graph holds, every stored dependency pair still occurs in the
collaborator's fresh report. -/
def noRemovalsB (w : World) (paths : List Path) (g : Graph) : Bool :=
  paths.all (fun p =>
    match jsGet g.dependencies p, resolveDependencies w p with
    | some m, .ok rd => m.dependencies.all (fun e => decide (e ∈ rd.1))
    | _, _ => true)

/-- Discovery bookkeeping invariant of one traversal call against the
pre-call graph `g0`: the re-transformed book is duplicate-free and lists
only paths present in the store; every stored path the pre-call graph
lacked is booked as discovered, unless it is an entry point created by the
dirty loop; and a re-transformed path existed before the call, is an entry
point, or was (re-)discovered during the call. -/
structure DiscInv (g0 : Graph) (st : TState) : Prop where
  modifiedNodup : st.delta.modified.Nodup
  modifiedPresent : ∀ p ∈ st.delta.modified, ∃ m, jsGet st.graph.dependencies p = some m
  newBooked : ∀ p, (∃ m, jsGet st.graph.dependencies p = some m) →
    jsGet g0.dependencies p = none →
    p ∈ st.delta.added ∨ (p ∈ st.graph.entryPoints ∧ p ∈ st.delta.modified)
  modifiedOld : ∀ p ∈ st.delta.modified,
    (∃ m, jsGet g0.dependencies p = some m) ∨ p ∈ st.graph.entryPoints ∨
      p ∈ st.delta.added

/-- Store-monotonicity invariant of an edge-removal-free call against the
pre-call graph `g0`: pre-call records persist, every stored dependency list
is the pre-call one, empty (a fresh record), or the collaborator's current
report, and every discovered path was absent from the pre-call graph. -/
structure MonoInv (w : World) (g0 : Graph) (st : TState) : Prop where
  keysMono : ∀ p m0, jsGet g0.dependencies p = some m0 →
    ∃ m, jsGet st.graph.dependencies p = some m
  storedOk : ∀ p m, jsGet st.graph.dependencies p = some m →
    (∃ m0, jsGet g0.dependencies p = some m0 ∧ m.dependencies = m0.dependencies) ∨
      m.dependencies = [] ∨
      ∃ rd, resolveDependencies w p = .ok rd ∧ m.dependencies = rd.1
  addedNew : ∀ p ∈ st.delta.added, jsGet g0.dependencies p = none


/-- A record with the given named dependency list and no other content, as
in the reorder test fixture. -/
def bareModule (p : Path) (deps : List (Name × Path)) : ModuleData :=
  { path := p, dependencies := deps, inverseDependencies := []
    output := defaultOutput }

/-- The unordered graph of the reorder test: entries `[/a, /b]`,
`/a → /0 → {/1, /2}`, `/1 → /2`, `/b → /3`, stored in scrambled insertion
order. -/
def reorderFixture : Graph :=
  { dependencies :=
      [("/2", bareModule "/2" []),
       ("/0", bareModule "/0" [("/1", "/1"), ("/2", "/2")]),
       ("/1", bareModule "/1" [("/2", "/2")]),
       ("/3", bareModule "/3" []),
       ("/b", bareModule "/b" [("/3", "/3")]),
       ("/a", bareModule "/a" [("/0", "/0")])]
    entryPoints := ["/a", "/b"] }

/-- The reorder fixture with one extra record unreachable from any entry. -/
def reorderFixtureUnreachable : Graph :=
  { reorderFixture with dependencies :=
      ("/zz", bareModule "/zz" [("/2", "/2")]) :: reorderFixture.dependencies }

/-- Collaborator world of the determinism test: `/bundle` depends on `/foo`
then `/bar`, and both `/foo` and `/bar` depend on `/baz`. -/
def jitterWorld : World :=
  { tree := [("/bundle", [("foo", "/foo"), ("bar", "/bar")]),
             ("/foo", [("baz", "/baz")]),
             ("/bar", [("baz", "/baz")])]
    modules := ["/bundle", "/foo", "/bar", "/baz"] }

/-- Schedule always completing the oldest in-flight transform first. -/
def schedOldest : Nat → Nat := fun _ => 0

/-- Schedule preferring the second in-flight transform, making slow modules
complete after their younger siblings. -/
def schedSecond : Nat → Nat := fun _ => 1

/-- Well-formedness of the progress channel state: the trace holds one entry
per counter increment, the i-th entry sums to `i + 1`, entries are
componentwise non-decreasing, and the last entry equals the counters. -/
structure GoodProg (pr : Prog) : Prop where
  count : pr.trace.length = pr.finishedCount + pr.discoveredCount
  sums : ∀ i (hi : i < pr.trace.length),
    (pr.trace.get ⟨i, hi⟩).1 + (pr.trace.get ⟨i, hi⟩).2 = i + 1
  chain : List.Chain' (· ≤ ·) pr.trace
  lastEq : pr.trace.getLastD (0, 0) = (pr.finishedCount, pr.discoveredCount)

/-- Progress relation of one engine step: well-formedness is preserved and
the two counters advance by the same amount (each discovery is matched by
exactly one finish). -/
def ProgStep (pr pr2 : Prog) : Prop :=
  (GoodProg pr → GoodProg pr2) ∧
  pr2.finishedCount + pr.discoveredCount =
    pr2.discoveredCount + pr.finishedCount

/-- Invariant of the engine state during one traversal call: the delta lists
are duplicate-free, a path booked added or modified is not booked deleted, a
path booked added is present in the store, and a path booked deleted has left
the store and is never an entry point. -/
structure EngInv (st : TState) : Prop where
  addedNodup : st.delta.added.Nodup
  modifiedNodup : st.delta.modified.Nodup
  deletedNodup : st.delta.deleted.Nodup
  addedDisj : ∀ p ∈ st.delta.added, ¬ p ∈ st.delta.deleted
  modifiedDisj : ∀ p ∈ st.delta.modified, ¬ p ∈ st.delta.deleted
  addedPresent : ∀ p ∈ st.delta.added, ∃ m, jsGet st.graph.dependencies p = some m
  deletedGone : ∀ p ∈ st.delta.deleted, jsGet st.graph.dependencies p = none
  deletedNotEntry : ∀ p ∈ st.delta.deleted, ¬ p ∈ st.graph.entryPoints

/-- One engine step seen abstractly: entry points are stable, the modified
list never grows inside module processing, and the invariant is preserved. -/
def StepOk (st st2 : TState) : Prop :=
  st2.graph.entryPoints = st.graph.entryPoints ∧
  (∀ p ∈ st2.delta.modified, p ∈ st.delta.modified) ∧
  (EngInv st → EngInv st2)

/-- Scenario of the add-and-modify ordering test: `/qux` added as a new
dependency of `/foo`, then `/bar` and `/baz` dirtied. -/
def addModifyEnv : TestEnv :=
  modifyFile (modifyFile (addDependency baseEnv "/foo" "/qux" none none) "/bar") "/baz"

/-- Scenario of the modify-then-delete test: `/baz` dirtied, then `/foo`'s
edge to `/baz` removed, in one batch. -/
def modifyDeleteEnv : TestEnv :=
  removeDependency (modifyFile baseEnv "/baz") "/foo" "/baz"

/-- Scenario removing a dependency and re-adding it to the same path within
one batch: the collaborator world ends up unchanged. -/
def removeReaddEnv : TestEnv :=
  addDependency (removeDependency baseEnv "/foo" "/baz") "/foo" "/baz" none none

/-- Scenario of the rename test: `/bundle` drops `/foo` for `/foo-renamed`,
which has its own fresh edges to `/bar` and `/baz`. -/
def renameEnv : TestEnv :=
  let e := addDependency baseEnv "/bundle" "/foo-renamed" none none
  let e := removeDependency e "/bundle" "/foo"
  let e := moveFile e "/foo" "/foo-renamed"
  let e := addDependency e "/foo-renamed" "/bar" none none
  addDependency e "/foo-renamed" "/baz" none none

/-- Scenario cutting the only entry edge: releasing `/foo` recursively
releases `/bar` and `/baz`, whose only remaining referrer was `/foo`. -/
def cutEntryEdgeEnv : TestEnv := removeDependency baseEnv "/bundle" "/foo"

/-- Scenario of the duplicate-name test: a second edge `/bundle → /foo`
under the name `foo.js`, inserted at position `0`. -/
def twoEntriesEnv : TestEnv :=
  addDependency baseEnv "/bundle" "/foo" (some 0) (some "foo.js")

/-- Scenario of the error-replay test: `/bar` deleted from the collaborator
world. -/
def errorEnv : TestEnv := deleteFile baseEnv "/bar"

/-- Extraction of a successful traversal result (dummy fallback). -/
def resultOf (x : Except Fail TraverseResult) : TraverseResult :=
  match x with
  | .ok r => r
  | .error _ => { graph := baseGraph, added := [], deleted := [], trace := [] }

/-- Result of the add-and-modify scenario. -/
def addModifyResult : TraverseResult :=
  resultOf (traverseDependencies fuel0 addModifyEnv.world addModifyEnv.files initialGraph)

/-- Result of the modify-then-delete scenario. -/
def modifyDeleteResult : TraverseResult :=
  resultOf (traverseDependencies fuel0 modifyDeleteEnv.world modifyDeleteEnv.files initialGraph)

/-- Result of the remove-then-readd scenario. -/
def removeReaddResult : TraverseResult :=
  resultOf (traverseDependencies fuel0 removeReaddEnv.world removeReaddEnv.files initialGraph)

/-- Result of the rename scenario. -/
def renameResult : TraverseResult :=
  resultOf (traverseDependencies fuel0 renameEnv.world renameEnv.files initialGraph)

/-- Result of the cut-entry-edge scenario. -/
def cutEntryEdgeResult : TraverseResult :=
  resultOf (traverseDependencies fuel0 cutEntryEdgeEnv.world cutEntryEdgeEnv.files initialGraph)

/-- Result of the duplicate-name scenario. -/
def twoEntriesResult : TraverseResult :=
  resultOf (traverseDependencies fuel0 twoEntriesEnv.world twoEntriesEnv.files initialGraph)

/-- Scenario removing only the `foo.js` alias after the duplicate-name
traversal. -/
def removeAliasEnv : TestEnv :=
  removeDependency { twoEntriesEnv with files := [] } "/bundle" "/foo"

/-- Result of the alias-removal scenario, continuing from the duplicate-name
graph. -/
def removeAliasResult : TraverseResult :=
  resultOf (traverseDependencies fuel0 removeAliasEnv.world removeAliasEnv.files
    twoEntriesResult.graph)

/-- Result of the initial traversal of the fixture. -/
def initialResult : TraverseResult :=
  resultOf (initialTraverseDependencies fuel0 baseEnv.world baseGraph).2

/-- The record of `/bar` in the fixture graph after the initial traversal
(its only referrer is `/foo`). -/
def barRecord : ModuleData :=
  (jsGet initialGraph.dependencies "/bar").getD (emptyModule "/bar")

/-- Engine state after removing the edge `/foo → /bar` from the fixture
graph directly through the release operation. -/
def releaseDemoState : TState :=
  match removeEdgeF (fuel0 + 1) (emptyTState initialGraph) "/foo" "/bar" with
  | .ok s => s
  | .error _ => emptyTState baseGraph


/-- Empty graph of the jitter fixture, entry `/bundle`. -/
def jitterGraph : Graph := { dependencies := [], entryPoints := ["/bundle"] }

/-- Dummy fallback for extracting a completed scheduled run. -/
def noPair : TState × List Path := (emptyTState baseGraph, [])

/-- Completed scheduled initial traversal of the jitter fixture under the
oldest-first completion schedule. -/
def jitterPair1 : TState × List Path :=
  match runT jitterWorld schedOldest 60 (initMInitial jitterGraph) with
  | .ok v => v
  | .error _ => noPair

/-- Completed scheduled initial traversal of the jitter fixture under the
second-first completion schedule. -/
def jitterPair2 : TState × List Path :=
  match runT jitterWorld schedSecond 60 (initMInitial jitterGraph) with
  | .ok v => v
  | .error _ => noPair

/-- Completed scheduled incremental traversal of the add-and-modify batch
(prior graph and dirty set of the fixture) under the oldest-first schedule. -/
def addModPair1 : TState × List Path :=
  match runT addModifyEnv.world schedOldest 80 (initM initialGraph addModifyEnv.files) with
  | .ok v => v
  | .error _ => noPair

/-- Completed scheduled incremental traversal of the add-and-modify batch
under the second-first schedule. -/
def addModPair2 : TState × List Path :=
  match runT addModifyEnv.world schedSecond 80 (initM initialGraph addModifyEnv.files) with
  | .ok v => v
  | .error _ => noPair

/-! Basic lemmas about the association-list containers. -/

theorem jsGet_some_mem {α : Type} :
    ∀ {l : List (String × α)} {k : String} {v : α},
      jsGet l k = some v → (k, v) ∈ l := by
  intro l
  induction l with
  | nil => intro k v h; simp [jsGet] at h
  | cons e rest ih =>
    intro k v h
    obtain ⟨k1, v1⟩ := e
    by_cases hk : k1 = k
    · subst hk
      have hv : v1 = v := by simpa [jsGet] using h
      subst hv
      exact List.mem_cons_self _ _
    · simp only [jsGet, if_neg hk] at h
      exact List.mem_cons_of_mem _ (ih h)

theorem jsGet_jsDelete_self {α : Type} (l : List (String × α)) (k : String) :
    jsGet (jsDelete l k) k = none := by
  induction l with
  | nil => simp [jsDelete, jsGet]
  | cons e rest ih =>
    obtain ⟨k1, v1⟩ := e
    by_cases hk : k1 = k
    · simpa [jsDelete, hk] using ih
    · simp [jsDelete, hk, jsGet, ih]

theorem jsGet_jsDelete_ne {α : Type} (l : List (String × α)) {k q : String}
    (h : k ≠ q) : jsGet (jsDelete l k) q = jsGet l q := by
  induction l with
  | nil => simp [jsDelete]
  | cons e rest ih =>
    obtain ⟨k1, v1⟩ := e
    by_cases hq : k1 = q
    · subst hq
      have hk : k1 ≠ k := fun hh => h (hh ▸ rfl)
      have hk2 : ¬ k1 = k := hk
      simp [jsDelete, hk2, jsGet]
    · by_cases hk : k1 = k
      · subst hk
        simp [jsDelete, jsGet, hq, ih]
      · simp [jsDelete, hk, jsGet, hq, ih]

theorem jsDelete_eq_self_of_none {α : Type} :
    ∀ {l : List (String × α)} {k : String}, jsGet l k = none → jsDelete l k = l := by
  intro l
  induction l with
  | nil => intro k _; simp [jsDelete]
  | cons e rest ih =>
    intro k h
    obtain ⟨k1, v1⟩ := e
    by_cases hk : k1 = k
    · simp [jsGet, hk] at h
    · simp only [jsGet, if_neg hk] at h
      simp [jsDelete, hk, ih h]

/-! Lemmas about the depth-first collection pass. -/

theorem dfsAux_nil (avail : List (Path × ModuleData)) : dfsAux avail [] = [] := by
  rw [dfsAux]

theorem dfsAux_cons_none {avail : List (Path × ModuleData)} {p : Path}
    (h : jsGet avail p = none) (rest : List Path) :
    dfsAux avail (p :: rest) = dfsAux avail rest := by
  rw [dfsAux.eq_def]
  split
  · next heq => cases heq
  · next p2 rest2 heq =>
    injection heq with hp hr
    subst hp; subst hr
    split
    · rfl
    · next m heq2 => rw [h] at heq2; cases heq2

theorem dfsAux_cons_some {avail : List (Path × ModuleData)} {p : Path}
    {m : ModuleData} (h : jsGet avail p = some m) (rest : List Path) :
    dfsAux avail (p :: rest) =
      (p, m) :: dfsAux (jsDelete avail p) (m.dependencies.map (fun e => e.2) ++ rest) := by
  rw [dfsAux.eq_def]
  split
  · next heq => cases heq
  · next p2 rest2 heq =>
    injection heq with hp hr
    subst hp; subst hr
    split
    · next heq2 => rw [h] at heq2; cases heq2
    · next m2 heq2 =>
      rw [h] at heq2
      injection heq2 with hm
      subst hm
      rfl

theorem mem_dfsAux_jsGet :
    ∀ (avail : List (Path × ModuleData)) (stack : List Path)
      {q : Path} {m : ModuleData},
      (q, m) ∈ dfsAux avail stack → jsGet avail q = some m := by
  intro avail stack
  induction avail, stack using dfsAux.induct with
  | case1 avail => intro q m h; simp [dfsAux_nil] at h
  | case2 avail p rest hnone ih =>
    intro q m h
    rw [dfsAux_cons_none hnone] at h
    exact ih h
  | case3 avail p rest mm hsome ih =>
    intro q m h
    rw [dfsAux_cons_some hsome] at h
    rcases List.mem_cons.mp h with h1 | h1
    · rw [Prod.mk.injEq] at h1
      obtain ⟨hq, hm⟩ := h1
      subst hq; subst hm
      exact hsome
    · have hrec := ih h1
      by_cases hpq : p = q
      · subst hpq
        rw [jsGet_jsDelete_self] at hrec
        cases hrec
      · rwa [jsGet_jsDelete_ne _ hpq] at hrec

/-- Idempotence of the depth-first collection: running the pass again over
its own output, from the same stack, reproduces the output. -/
theorem dfsAux_idem :
    ∀ (avail : List (Path × ModuleData)) (stack : List Path),
      dfsAux (dfsAux avail stack) stack = dfsAux avail stack := by
  intro avail stack
  induction avail, stack using dfsAux.induct with
  | case1 avail => simp [dfsAux_nil]
  | case2 avail p rest hnone ih =>
    rw [dfsAux_cons_none hnone]
    have hv : jsGet (dfsAux avail rest) p = none := by
      cases hV : jsGet (dfsAux avail rest) p with
      | none => rfl
      | some m =>
        have hmem := mem_dfsAux_jsGet avail rest (jsGet_some_mem hV)
        rw [hnone] at hmem
        cases hmem
    rw [dfsAux_cons_none hv]
    exact ih
  | case3 avail p rest m hsome ih =>
    rw [dfsAux_cons_some hsome]
    have hnm : jsGet (dfsAux (jsDelete avail p)
        (m.dependencies.map (fun e => e.2) ++ rest)) p = none := by
      cases hV : jsGet (dfsAux (jsDelete avail p)
          (m.dependencies.map (fun e => e.2) ++ rest)) p with
      | none => rfl
      | some m2 =>
        have hmem := mem_dfsAux_jsGet _ _ (jsGet_some_mem hV)
        rw [jsGet_jsDelete_self] at hmem
        cases hmem
    have hhead : jsGet ((p, m) :: dfsAux (jsDelete avail p)
        (m.dependencies.map (fun e => e.2) ++ rest)) p = some m := by
      simp [jsGet]
    rw [dfsAux_cons_some hhead]
    have htail : jsDelete ((p, m) :: dfsAux (jsDelete avail p)
        (m.dependencies.map (fun e => e.2) ++ rest)) p =
        dfsAux (jsDelete avail p) (m.dependencies.map (fun e => e.2) ++ rest) := by
      simp [jsDelete, jsDelete_eq_self_of_none hnm]
    rw [htail, ih]

theorem sumDeps_jsDelete_le (avail : List (Path × ModuleData)) (p : Path) :
    sumDeps (jsDelete avail p) ≤ sumDeps avail := by
  induction avail with
  | nil => simp [jsDelete]
  | cons e rest ih =>
    obtain ⟨k, v⟩ := e
    by_cases hk : k = p
    · rw [show jsDelete ((k, v) :: rest) p = jsDelete rest p by simp [jsDelete, hk]]
      refine Nat.le_trans ih ?_
      simp only [sumDeps, List.map_cons, List.sum_cons]
      omega
    · rw [show jsDelete ((k, v) :: rest) p = (k, v) :: jsDelete rest p by
        simp [jsDelete, hk]]
      simp only [sumDeps, List.map_cons, List.sum_cons] at ih ⊢
      omega

theorem sumDeps_jsDelete {avail : List (Path × ModuleData)} {p : Path}
    {m : ModuleData} (h : jsGet avail p = some m) :
    sumDeps (jsDelete avail p) + m.dependencies.length ≤ sumDeps avail := by
  induction avail with
  | nil => simp [jsGet] at h
  | cons e rest ih =>
    obtain ⟨k, v⟩ := e
    by_cases hk : k = p
    · have hv : v = m := by
        subst hk
        simpa [jsGet] using h
      subst hv
      rw [show jsDelete ((k, v) :: rest) p = jsDelete rest p by simp [jsDelete, hk]]
      have h2 := sumDeps_jsDelete_le rest p
      simp only [sumDeps, List.map_cons, List.sum_cons] at h2 ⊢
      omega
    · simp only [jsGet, if_neg hk] at h
      have h2 := ih h
      rw [show jsDelete ((k, v) :: rest) p = (k, v) :: jsDelete rest p by
        simp [jsDelete, hk]]
      simp only [sumDeps, List.map_cons, List.sum_cons] at h2 ⊢
      omega

/-- With fuel at least the pass's work bound, the fuelled depth-first pass
agrees with the specification pass. -/
theorem dfsFuel_eq_dfsAux :
    ∀ (avail : List (Path × ModuleData)) (stack : List Path) (fuel : Nat),
      stack.length + avail.length + sumDeps avail ≤ fuel →
      dfsFuel fuel avail stack = dfsAux avail stack := by
  intro avail stack
  induction avail, stack using dfsAux.induct with
  | case1 avail =>
    intro fuel _
    cases fuel with
    | zero => simp [dfsFuel, dfsAux_nil]
    | succ f => simp [dfsFuel, dfsAux_nil]
  | case2 avail p rest hnone ih =>
    intro fuel hb
    cases fuel with
    | zero => simp at hb
    | succ f =>
      have hb2 : rest.length + avail.length + sumDeps avail ≤ f := by
        simp only [List.length_cons] at hb
        omega
      simp only [dfsFuel, hnone]
      rw [ih f hb2, dfsAux_cons_none hnone]
  | case3 avail p rest m hsome ih =>
    intro fuel hb
    cases fuel with
    | zero => simp at hb
    | succ f =>
      have h1 := jsDelete_length_lt hsome
      have h2 := sumDeps_jsDelete hsome
      have hb2 : (m.dependencies.map (fun e => e.2) ++ rest).length +
          (jsDelete avail p).length + sumDeps (jsDelete avail p) ≤ f := by
        simp only [List.length_append, List.length_map, List.length_cons] at hb ⊢
        omega
      simp only [dfsFuel, hsome]
      rw [ih f hb2, dfsAux_cons_some hsome]

/-- The computational `reorderGraph` realizes the specification pass. -/
theorem reorderGraph_eq (g : Graph) :
    reorderGraph g = { g with dependencies := dfsAux g.dependencies g.entryPoints } := by
  have hb : g.entryPoints.length + g.dependencies.length + sumDeps g.dependencies ≤
      dfsBound g := by
    unfold dfsBound
    omega
  unfold reorderGraph
  rw [dfsFuel_eq_dfsAux _ _ _ hb]

/-! Further container lemmas used by the engine invariants. -/

theorem mem_jsSetAdd {s : List String} {p q : String} :
    p ∈ jsSetAdd s q ↔ p ∈ s ∨ p = q := by
  unfold jsSetAdd
  by_cases hq : q ∈ s
  · simp only [if_pos hq]
    constructor
    · exact Or.inl
    · rintro (hp | hp)
      · exact hp
      · exact hp ▸ hq
  · simp [if_neg hq]

theorem nodup_jsSetAdd {s : List String} (q : String) (h : s.Nodup) :
    (jsSetAdd s q).Nodup := by
  unfold jsSetAdd
  by_cases hq : q ∈ s
  · simpa [if_pos hq]
  · simp only [if_neg hq]
    exact List.Nodup.append h (List.nodup_singleton q)
      (by simpa [List.disjoint_singleton] using hq)

theorem jsGet_jsSet_self {α : Type} (l : List (String × α)) (k : String) (v : α) :
    jsGet (jsSet l k v) k = some v := by
  induction l with
  | nil => simp [jsSet, jsGet]
  | cons e rest ih =>
    obtain ⟨k1, v1⟩ := e
    by_cases hk : k1 = k
    · simp [jsSet, hk, jsGet]
    · simp [jsSet, hk, jsGet, ih]

theorem jsGet_jsSet_ne {α : Type} (l : List (String × α)) {k q : String} (v : α)
    (h : q ≠ k) : jsGet (jsSet l k v) q = jsGet l q := by
  have hk : k ≠ q := Ne.symm h
  induction l with
  | nil => simp [jsSet, jsGet, hk]
  | cons e rest ih =>
    obtain ⟨k1, v1⟩ := e
    by_cases h1 : k1 = k
    · subst h1
      simp [jsSet, jsGet, hk]
    · simp [jsSet, h1, jsGet, ih]

theorem jsGet_append_of_none {α : Type} {l : List (String × α)} {q : String}
    (h : jsGet l q = none) (l2 : List (String × α)) :
    jsGet (l ++ l2) q = jsGet l2 q := by
  induction l with
  | nil => simp
  | cons e rest ih =>
    obtain ⟨k1, v1⟩ := e
    by_cases hk : k1 = q
    · simp [jsGet, hk] at h
    · simp only [jsGet, if_neg hk] at h
      simpa [jsGet, hk] using ih h

theorem jsGet_append_of_some {α : Type} {l : List (String × α)} {q : String}
    {v : α} (h : jsGet l q = some v) (l2 : List (String × α)) :
    jsGet (l ++ l2) q = some v := by
  induction l with
  | nil => simp [jsGet] at h
  | cons e rest ih =>
    obtain ⟨k1, v1⟩ := e
    by_cases hk : k1 = q
    · have hv : v1 = v := by
        subst hk
        simpa [jsGet] using h
      subst hv
      simp [jsGet, hk]
    · simp only [jsGet, if_neg hk] at h
      simpa [jsGet, hk] using ih h

theorem jsGet_append_single_self {α : Type} {l : List (String × α)} {k : String}
    (h : jsGet l k = none) (v : α) : jsGet (l ++ [(k, v)]) k = some v := by
  rw [jsGet_append_of_none h]
  simp [jsGet]

theorem jsGet_append_single_ne {α : Type} {l : List (String × α)} {k q : String}
    (hq : k ≠ q) (h : jsGet l q = none) (v : α) :
    jsGet (l ++ [(k, v)]) q = none := by
  rw [jsGet_append_of_none h]
  simp [jsGet, hq]

theorem except_bind_ok {α β : Type} {x : Except Fail α} {f : α → Except Fail β}
    {b : β} (h : (x >>= f) = .ok b) : ∃ a, x = .ok a ∧ f a = .ok b := by
  cases x with
  | ok a => exact ⟨a, rfl, h⟩
  | error e => simp [Bind.bind, Except.bind] at h

/-- Generic invariant-threading lemma for `foldlM` over `Except`. -/
theorem foldlM_except_inv {β : Type} {P : TState → Prop}
    {f : TState → β → Except Fail TState}
    (hf : ∀ s b s2, f s b = .ok s2 → P s → P s2) :
    ∀ (l : List β) (s s2 : TState), List.foldlM f s l = .ok s2 → P s → P s2 := by
  intro l
  induction l with
  | nil =>
    intro s s2 h hp
    simp only [List.foldlM_nil] at h
    cases h
    exact hp
  | cons b t ih =>
    intro s s2 h hp
    simp only [List.foldlM_cons] at h
    obtain ⟨s1, h1, h2⟩ := except_bind_ok h
    exact ih s1 s2 h2 (hf s b s1 h1 hp)

/-! The engine invariant carried through one traversal call. -/

theorem stepOk_refl (st : TState) : StepOk st st :=
  ⟨rfl, fun _ hp => hp, fun hi => hi⟩

theorem stepOk_trans {a b c : TState} (h1 : StepOk a b) (h2 : StepOk b c) :
    StepOk a c :=
  ⟨h2.1.trans h1.1, fun p hp => h1.2.1 p (h2.2.1 p hp),
    fun hi => h2.2.2 (h1.2.2 hi)⟩

theorem stepOk_prog (st : TState) (pr : Prog) :
    StepOk st { st with prog := pr } :=
  ⟨rfl, fun _ hp => hp, fun hi =>
    ⟨hi.addedNodup, hi.modifiedNodup, hi.deletedNodup, hi.addedDisj,
     hi.modifiedDisj, hi.addedPresent, hi.deletedGone, hi.deletedNotEntry⟩⟩

theorem stepOk_setRecord {st : TState} {target : Path} {m : ModuleData}
    (m2 : ModuleData) (hm : jsGet st.graph.dependencies target = some m) :
    StepOk st (setRecord' st target m2) := by
  refine ⟨rfl, fun p hp => hp, fun hi => ?_⟩
  refine ⟨hi.addedNodup, hi.modifiedNodup, hi.deletedNodup, hi.addedDisj,
    hi.modifiedDisj, ?_, ?_, hi.deletedNotEntry⟩
  · intro p hp
    obtain ⟨mp, hmp⟩ := hi.addedPresent p hp
    by_cases hpt : p = target
    · subst hpt
      exact ⟨m2, jsGet_jsSet_self _ _ _⟩
    · exact ⟨mp, by
        show jsGet (jsSet st.graph.dependencies target m2) p = some mp
        rw [jsGet_jsSet_ne _ _ hpt]
        exact hmp⟩
  · intro p hp
    have hg := hi.deletedGone p hp
    have hpt : p ≠ target := by
      intro hh
      rw [hh, hm] at hg
      cases hg
    show jsGet (jsSet st.graph.dependencies target m2) p = none
    rw [jsGet_jsSet_ne _ _ hpt]
    exact hg

/-- Every engine operation of one traversal call is an abstract engine step:
this is the master preservation lemma, proven by induction on the fuel of the
mutual recursion. -/
theorem engine_step_ok :
    ∀ fuel : Nat,
      (∀ st parentPath target st2,
          removeEdgeF fuel st parentPath target = .ok st2 → StepOk st st2) ∧
      (∀ w st p st2, processModuleF fuel w st p = .ok st2 → StepOk st st2) ∧
      (∀ w st parentPath target st2,
          addDependencyF fuel w st parentPath target = .ok st2 → StepOk st st2) := by
  intro fuel
  induction fuel with
  | zero =>
    refine ⟨?_, ?_, ?_⟩
    · intro st parentPath target st2 h
      simp [removeEdgeF] at h
    · intro w st p st2 h
      simp [processModuleF] at h
    · intro w st parentPath target st2 h
      simp [addDependencyF] at h
  | succ f ih =>
    obtain ⟨ihR, ihP, ihA⟩ := ih
    refine ⟨?_, ?_, ?_⟩
    · -- removeEdgeF: edge removal with reference-counted release
      intro st parentPath target st2 h
      simp only [removeEdgeF] at h
      split at h
      · cases h
        exact stepOk_refl _
      · next m hm =>
        split at h
        · next hcond =>
          -- release branch
          obtain ⟨hinv, hentry⟩ := hcond
          have hstep : StepOk st
              { graph := { st.graph with
                  dependencies := jsDelete st.graph.dependencies target }
                delta := { added := st.delta.added.erase target
                           modified := st.delta.modified.erase target
                           deleted := jsSetAdd st.delta.deleted target }
                prog := st.prog } := by
            refine ⟨rfl, fun p hp => List.mem_of_mem_erase hp, fun hi => ?_⟩
            refine ⟨hi.addedNodup.erase _, hi.modifiedNodup.erase _,
              nodup_jsSetAdd _ hi.deletedNodup, ?_, ?_, ?_, ?_, ?_⟩
            · intro p hp hpd
              have hpt : p ≠ target := (hi.addedNodup.mem_erase_iff.mp hp).1
              rcases mem_jsSetAdd.mp hpd with hd | hd
              · exact hi.addedDisj p (List.mem_of_mem_erase hp) hd
              · exact hpt hd
            · intro p hp hpd
              have hpt : p ≠ target := (hi.modifiedNodup.mem_erase_iff.mp hp).1
              rcases mem_jsSetAdd.mp hpd with hd | hd
              · exact hi.modifiedDisj p (List.mem_of_mem_erase hp) hd
              · exact hpt hd
            · intro p hp
              obtain ⟨mp, hmp⟩ := hi.addedPresent p (List.mem_of_mem_erase hp)
              have hpt : p ≠ target := (hi.addedNodup.mem_erase_iff.mp hp).1
              refine ⟨mp, ?_⟩
              show jsGet (jsDelete st.graph.dependencies target) p = some mp
              rw [jsGet_jsDelete_ne _ (Ne.symm hpt)]
              exact hmp
            · intro p hp
              show jsGet (jsDelete st.graph.dependencies target) p = none
              by_cases hpt : p = target
              · subst hpt
                exact jsGet_jsDelete_self _ _
              · rcases mem_jsSetAdd.mp hp with hd | hd
                · rw [jsGet_jsDelete_ne _ (Ne.symm hpt)]
                  exact hi.deletedGone p hd
                · exact absurd hd hpt
            · intro p hp
              rcases mem_jsSetAdd.mp hp with hd | hd
              · exact hi.deletedNotEntry p hd
              · subst hd
                exact hentry
          refine foldlM_except_inv (P := fun s => StepOk st s) ?_ _ _ st2 h hstep
          intro s b s2 hs hp
          exact stepOk_trans hp (ihR s target b s2 hs)
        · -- kept branch: another entry still references the target
          cases h
          exact stepOk_setRecord _ hm
    · -- processModuleF
      intro w st p st2 h
      simp only [processModuleF] at h
      obtain ⟨rd, hrd, h1⟩ := except_bind_ok h
      obtain ⟨st1, hfold1, h2⟩ := except_bind_ok h1
      obtain ⟨st2p, hfold2, h3⟩ := except_bind_ok h2
      injection h3 with h3
      subst h3
      have s1 : StepOk st st1 := by
        refine foldlM_except_inv (P := fun s => StepOk st s) ?_ _ _ st1 hfold1
          (stepOk_refl st)
        intro s b s2 hs hp
        exact stepOk_trans hp (ihA w s p b.2 s2 hs)
      have s2 : StepOk st1 st2p := by
        refine foldlM_except_inv (P := fun s => StepOk st1 s) ?_ _ _ st2p hfold2
          (stepOk_refl st1)
        intro s b s2 hs hp
        exact stepOk_trans hp (ihR s p b.2 s2 hs)
      have s3 : StepOk st2p (replaceRecord st2p p rd.1 rd.2) := by
        cases hg : jsGet st2p.graph.dependencies p with
        | none =>
          rw [replaceRecord, hg]
          exact stepOk_refl _
        | some m =>
          rw [replaceRecord, hg]
          exact stepOk_setRecord _ hg
      exact stepOk_trans (stepOk_trans s1 s2) s3
    · -- addDependencyF
      intro w st parentPath target st2 h
      simp only [addDependencyF] at h
      split at h
      · next m hm =>
        cases h
        exact stepOk_setRecord _ hm
      · next hm =>
        obtain ⟨st2i, hproc, h2⟩ := except_bind_ok h
        injection h2 with h2
        subst h2
        have hstep : StepOk st
            { graph := { st.graph with dependencies := st.graph.dependencies ++
                [(target, { path := target, dependencies := []
                            inverseDependencies := [parentPath]
                            output := defaultOutput })] }
              delta := { st.delta with added := jsSetAdd st.delta.added target
                                       deleted := st.delta.deleted.erase target }
              prog := emitDisc st.prog } := by
          refine ⟨rfl, fun p hp => hp, fun hi => ?_⟩
          refine ⟨nodup_jsSetAdd _ hi.addedNodup, hi.modifiedNodup,
            hi.deletedNodup.erase _, ?_, ?_, ?_, ?_, ?_⟩
          · intro p hp hpd
            have hpt : p ≠ target := (hi.deletedNodup.mem_erase_iff.mp hpd).1
            rcases mem_jsSetAdd.mp hp with ha | ha
            · exact hi.addedDisj p ha (List.mem_of_mem_erase hpd)
            · exact hpt ha
          · intro p hp hpd
            exact hi.modifiedDisj p hp (List.mem_of_mem_erase hpd)
          · intro p hp
            rcases mem_jsSetAdd.mp hp with ha | ha
            · obtain ⟨mp, hmp⟩ := hi.addedPresent p ha
              exact ⟨mp, jsGet_append_of_some hmp _⟩
            · subst ha
              exact ⟨_, jsGet_append_single_self hm _⟩
          · intro p hp
            have hpt : p ≠ target := (hi.deletedNodup.mem_erase_iff.mp hp).1
            have hgn := hi.deletedGone p (List.mem_of_mem_erase hp)
            exact jsGet_append_single_ne (Ne.symm hpt) hgn _
          · intro p hp
            exact hi.deletedNotEntry p (List.mem_of_mem_erase hp)
        refine stepOk_trans (stepOk_trans hstep (ihP w _ target st2i hproc)) ?_
        exact stepOk_prog st2i (emitFin st2i.prog)

/-- The dirty-path loop is an abstract engine step as well, with the
modified list growing only by dirty paths, in caller order. -/
theorem traverse_list_step :
    ∀ (paths : List Path) (fuel : Nat) (w : World) (st st2 : TState),
      traverseListF fuel w st paths = .ok st2 →
      st2.graph.entryPoints = st.graph.entryPoints ∧
      (∀ p ∈ st2.delta.modified, p ∈ st.delta.modified ∨ p ∈ paths) ∧
      (EngInv st → EngInv st2) := by
  intro paths
  induction paths with
  | nil =>
    intro fuel w st st2 h
    simp only [traverseListF] at h
    cases h
    exact ⟨rfl, fun p hp => Or.inl hp, fun hi => hi⟩
  | cons p rest ih =>
    intro fuel w st st2 h
    simp only [traverseListF] at h
    split at h
    · next m hm =>
      obtain ⟨st2i, hproc, hrest⟩ := except_bind_ok h
      have hinv1 : EngInv st → EngInv
          { graph := st.graph,
            delta := { added := st.delta.added,
                       modified := jsSetAdd st.delta.modified p,
                       deleted := st.delta.deleted },
            prog := emitDisc st.prog } := by
        intro hi
        refine ⟨hi.addedNodup, nodup_jsSetAdd _ hi.modifiedNodup,
          hi.deletedNodup, hi.addedDisj, ?_, hi.addedPresent, hi.deletedGone,
          hi.deletedNotEntry⟩
        intro q hq hqd
        rcases mem_jsSetAdd.mp hq with hq1 | hq1
        · exact hi.modifiedDisj q hq1 hqd
        · subst hq1
          have hgn := hi.deletedGone q hqd
          rw [hm] at hgn
          cases hgn
      have hp2 := (engine_step_ok fuel).2.1 w _ p st2i hproc
      obtain ⟨hent, hmod, hinv⟩ := ih fuel w _ st2 hrest
      refine ⟨hent.trans hp2.1, ?_, fun hi =>
        hinv ((stepOk_prog st2i (emitFin st2i.prog)).2.2 (hp2.2.2 (hinv1 hi)))⟩
      intro q hq
      rcases hmod q hq with hq1 | hq1
      · rcases mem_jsSetAdd.mp (hp2.2.1 q hq1) with hq2 | hq2
        · exact Or.inl hq2
        · exact Or.inr (hq2 ▸ List.mem_cons_self p rest)
      · exact Or.inr (List.mem_cons_of_mem p hq1)
    · next hm =>
      split at h
      · next hpe =>
        obtain ⟨st2i, hproc, hrest⟩ := except_bind_ok h
        have hcr : createRecord st.graph p =
            { st.graph with dependencies :=
                st.graph.dependencies ++ [(p, emptyModule p)] } := by
          rw [createRecord, hm]
        have hinv1 : EngInv st → EngInv
            { graph := createRecord st.graph p,
              delta := { added := st.delta.added,
                         modified := jsSetAdd st.delta.modified p,
                         deleted := st.delta.deleted },
              prog := emitDisc st.prog } := by
          intro hi
          refine ⟨hi.addedNodup, nodup_jsSetAdd _ hi.modifiedNodup,
            hi.deletedNodup, hi.addedDisj, ?_, ?_, ?_, ?_⟩
          · intro q hq hqd
            rcases mem_jsSetAdd.mp hq with hq1 | hq1
            · exact hi.modifiedDisj q hq1 hqd
            · subst hq1
              exact hi.deletedNotEntry q hqd hpe
          · intro q hq
            obtain ⟨mq, hmq⟩ := hi.addedPresent q hq
            refine ⟨mq, ?_⟩
            show jsGet (createRecord st.graph p).dependencies q = some mq
            rw [hcr]
            exact jsGet_append_of_some hmq _
          · intro q hq
            have hqp : q ≠ p := by
              intro hh
              exact hi.deletedNotEntry q hq (hh ▸ hpe)
            show jsGet (createRecord st.graph p).dependencies q = none
            rw [hcr]
            exact jsGet_append_single_ne (Ne.symm hqp) (hi.deletedGone q hq) _
          · intro q hq
            show ¬ q ∈ (createRecord st.graph p).entryPoints
            rw [hcr]
            exact hi.deletedNotEntry q hq
        have hp2 := (engine_step_ok fuel).2.1 w _ p st2i hproc
        obtain ⟨hent, hmod, hinv⟩ := ih fuel w _ st2 hrest
        have hent1 : (createRecord st.graph p).entryPoints =
            st.graph.entryPoints := by
          rw [hcr]
        refine ⟨hent.trans (hp2.1.trans hent1), ?_, fun hi =>
          hinv ((stepOk_prog st2i (emitFin st2i.prog)).2.2 (hp2.2.2 (hinv1 hi)))⟩
        intro q hq
        rcases hmod q hq with hq1 | hq1
        · rcases mem_jsSetAdd.mp (hp2.2.1 q hq1) with hq2 | hq2
          · exact Or.inl hq2
          · exact Or.inr (hq2 ▸ List.mem_cons_self p rest)
        · exact Or.inr (List.mem_cons_of_mem p hq1)
      · obtain ⟨hent, hmod, hinv⟩ := ih fuel w st st2 h
        refine ⟨hent, ?_, hinv⟩
        intro q hq
        rcases hmod q hq with hq1 | hq1
        · exact Or.inl hq1
        · exact Or.inr (List.mem_cons_of_mem p hq1)

/-- The invariant holds at the start of every public call. -/
theorem engInv_empty (g : Graph) : EngInv (emptyTState g) := by
  refine ⟨List.nodup_nil, List.nodup_nil, List.nodup_nil, ?_, ?_, ?_, ?_, ?_⟩
  all_goals intro p hp
  all_goals cases hp

/-! Concrete scenarios, translated from the test module. -/

/-! Claim theorems. -/

/-! The scheduled engine refines the pure serialized engine: C1 support. -/

/-- `foldlM` over `Except` is monotone under pointwise strengthening of the
step function on successful results. -/
theorem foldlM_except_mono {β : Type} {f g : TState → β → Except Fail TState}
    (hfg : ∀ s b t, f s b = .ok t → g s b = .ok t) :
    ∀ (l : List β) (s t : TState), List.foldlM f s l = .ok t →
      List.foldlM g s l = .ok t := by
  intro l
  induction l with
  | nil =>
    intro s t h
    simpa using h
  | cons b bs ih =>
    intro s t h
    simp only [List.foldlM_cons] at h ⊢
    obtain ⟨s1, h1, h2⟩ := except_bind_ok h
    rw [hfg s b s1 h1]
    exact ih s1 t h2

/-- Unfolding of edge removal at an absent target. -/
theorem removeEdgeF_none_eq (fuel : Nat) (st : TState) (parentPath target : Path)
    (hm : jsGet st.graph.dependencies target = none) :
    removeEdgeF (fuel + 1) st parentPath target = .ok st := by
  simp only [removeEdgeF, hm]

/-- Unfolding of edge removal at a released target. -/
theorem removeEdgeF_rel_eq (fuel : Nat) (st : TState) (parentPath target : Path)
    (m : ModuleData) (hm : jsGet st.graph.dependencies target = some m)
    (hc : m.inverseDependencies.erase parentPath = [] ∧
      ¬ target ∈ st.graph.entryPoints) :
    removeEdgeF (fuel + 1) st parentPath target =
      (m.dependencies.map (fun e => e.2)).foldlM
        (fun s q => removeEdgeF fuel s target q)
        { graph := { st.graph with dependencies := jsDelete st.graph.dependencies target }
          delta := { added := st.delta.added.erase target
                     modified := st.delta.modified.erase target
                     deleted := jsSetAdd st.delta.deleted target }
          prog := st.prog } := by
  simp only [removeEdgeF, hm, if_pos hc]

/-- Unfolding of edge removal at a retained target. -/
theorem removeEdgeF_keep_eq (fuel : Nat) (st : TState) (parentPath target : Path)
    (m : ModuleData) (hm : jsGet st.graph.dependencies target = some m)
    (hc : ¬ (m.inverseDependencies.erase parentPath = [] ∧
      ¬ target ∈ st.graph.entryPoints)) :
    removeEdgeF (fuel + 1) st parentPath target =
      .ok (setRecord' st target
        { m with inverseDependencies := m.inverseDependencies.erase parentPath }) := by
  simp only [removeEdgeF, hm, if_neg hc]

/-- Success of the edge-removal operation is stable under one more unit of
fuel, with the same result. -/
theorem removeEdgeF_succ :
    ∀ (fuel : Nat) (st : TState) (parentPath target : Path) (st2 : TState),
      removeEdgeF fuel st parentPath target = .ok st2 →
      removeEdgeF (fuel + 1) st parentPath target = .ok st2 := by
  intro fuel
  induction fuel with
  | zero =>
    intro st parentPath target st2 h
    simp [removeEdgeF] at h
  | succ f ih =>
    intro st parentPath target st2 h
    cases hm : jsGet st.graph.dependencies target with
    | none =>
      rw [removeEdgeF_none_eq f st parentPath target hm] at h
      rw [removeEdgeF_none_eq (f + 1) st parentPath target hm]
      exact h
    | some m =>
      by_cases hc : m.inverseDependencies.erase parentPath = [] ∧
          ¬ target ∈ st.graph.entryPoints
      · rw [removeEdgeF_rel_eq f st parentPath target m hm hc] at h
        rw [removeEdgeF_rel_eq (f + 1) st parentPath target m hm hc]
        exact foldlM_except_mono (fun s b t ht => ih s target b t ht) _ _ _ h
      · rw [removeEdgeF_keep_eq f st parentPath target m hm hc] at h
        rw [removeEdgeF_keep_eq (f + 1) st parentPath target m hm hc]
        exact h

/-- Fuel monotonicity of the edge-removal operation. -/
theorem removeEdgeF_mono :
    ∀ (f f2 : Nat), f ≤ f2 →
      ∀ (st : TState) (parentPath target : Path) (st2 : TState),
        removeEdgeF f st parentPath target = .ok st2 →
        removeEdgeF f2 st parentPath target = .ok st2 := by
  intro f f2 hle
  obtain ⟨k, rfl⟩ := Nat.exists_eq_add_of_le hle
  clear hle
  induction k with
  | zero =>
    intro st parentPath target st2 h
    simpa using h
  | succ k ih =>
    intro st parentPath target st2 h
    exact removeEdgeF_succ (f + k) st parentPath target st2 (ih st parentPath target st2 h)

/-- Fuel monotonicity of the removal-and-replacement step. -/
theorem stepRmv_mono {f f2 : Nat} (hle : f ≤ f2) (st : TState) (p : Path)
    (removals newDeps : List (Name × Path)) (out : Output) (t : TState)
    (h : stepRmv f st p removals newDeps out = .ok t) :
    stepRmv f2 st p removals newDeps out = .ok t := by
  unfold stepRmv at h ⊢
  obtain ⟨s1, h1, h2⟩ := except_bind_ok h
  rw [foldlM_except_mono (fun s b u hu => removeEdgeF_mono f f2 hle s p b.2 u hu) _ _ _ h1]
  exact h2

/-- Buffer validity survives parking a freshly completed result. -/
theorem bufOk_set {w : World} {buf : List (Path × (List (Name × Path) × Output))}
    (hb : BufOk w buf) {c : Path} {rd : List (Name × Path) × Output}
    (hc : resolveDependencies w c = .ok rd) : BufOk w (jsSet buf c rd) := by
  intro q rdq hq
  by_cases hqc : q = c
  · subst hqc
    rw [jsGet_jsSet_self] at hq
    injection hq with hq
    subst hq
    exact hc
  · rw [jsGet_jsSet_ne _ _ hqc] at hq
    exact hb q rdq hq

/-- Buffer validity survives consuming a parked result. -/
theorem bufOk_delete {w : World} {buf : List (Path × (List (Name × Path) × Output))}
    (hb : BufOk w buf) (p : Path) : BufOk w (jsDelete buf p) := by
  intro q rdq hq
  by_cases hqp : q = p
  · subst hqp
    rw [jsGet_jsDelete_self] at hq
    cases hq
  · rw [jsGet_jsDelete_ne _ (fun hh => hqp hh.symm)] at hq
    exact hb q rdq hq

/-- Refinement: a completed scheduled run, started from a valid buffer,
computes exactly what the pure serialized engine computes from the same
state and continuation — the schedule's completion choices leave no trace
in the result. -/
theorem runT_refines_runP :
    ∀ (n : Nat) (w : World) (sched : Nat → Nat) (M : MState) (t : TState)
      (lg : List Path),
      runT w sched n M = .ok (t, lg) → BufOk w M.buf →
      ∀ m, n ≤ m → runP w m (M.ts, M.stack) = .ok t := by
  intro n
  induction n with
  | zero =>
    intro w sched M t lg h
    simp [runT] at h
  | succ f ih =>
    intro w sched M t lg h hbuf m hm
    obtain ⟨ts, stack, flight, buf, lg0⟩ := M
    obtain ⟨m2, rfl⟩ : ∃ m2, m = m2 + 1 := ⟨m - 1, by omega⟩
    have hm2 : f ≤ m2 := by omega
    cases stack with
    | nil =>
      simp only [runT] at h
      injection h with h
      rw [Prod.mk.injEq] at h
      show runP w (m2 + 1) (ts, []) = .ok t
      rw [h.1]
      rfl
    | cons fr rest =>
      cases fr with
      | dirty p =>
        simp only [runT] at h
        have hstep := ih w sched _ t lg h hbuf m2 hm2
        show runP w (m2 + 1) (ts, Frame.dirty p :: rest) = .ok t
        simp only [runP]
        exact hstep
      | consume p =>
        simp only [runT] at h
        cases hbget : jsGet buf p with
        | some rd =>
          simp only [hbget] at h
          have hres : resolveDependencies w p = .ok rd := hbuf p rd hbget
          have hstep := ih w sched _ t lg h (bufOk_delete hbuf p) m2 hm2
          show runP w (m2 + 1) (ts, Frame.consume p :: rest) = .ok t
          simp only [runP, hres]
          exact hstep
        | none =>
          simp only [hbget] at h
          cases flight with
          | nil => cases h
          | cons q qs =>
            cases hres : resolveDependencies w
                ((q :: qs).getD (sched f % (q :: qs).length) q) with
            | error e =>
              simp only [hres] at h
              cases h
            | ok rd =>
              simp only [hres] at h
              exact ih w sched _ t lg h (bufOk_set hbuf hres) (m2 + 1) (by omega)
      | addE parentPath target =>
        simp only [runT] at h
        have hstep := ih w sched _ t lg h hbuf m2 hm2
        show runP w (m2 + 1) (ts, Frame.addE parentPath target :: rest) = .ok t
        simp only [runP]
        exact hstep
      | rmv p removals newDeps out =>
        simp only [runT] at h
        cases hr : stepRmv f ts p removals newDeps out with
        | error e =>
          simp only [hr] at h
          cases h
        | ok st2 =>
          simp only [hr] at h
          have hstep := ih w sched _ t lg h hbuf m2 hm2
          show runP w (m2 + 1) (ts, Frame.rmv p removals newDeps out :: rest) = .ok t
          simp only [runP, stepRmv_mono hm2 ts p removals newDeps out st2 hr]
          exact hstep
      | fin =>
        simp only [runT] at h
        have hstep := ih w sched _ t lg h hbuf m2 hm2
        show runP w (m2 + 1) (ts, Frame.fin :: rest) = .ok t
        simp only [runP]
        exact hstep

/-- C1: determinism of traversal under concurrent collaborator completion.
For every collaborator world, every prior graph state and every dirty-path
list, two completed runs of the scheduled engine — whatever schedules drive
the order in which the in-flight `transform`/`resolve` invocations
complete — reach the same final engine state: the same `graph.dependencies`
key iteration order, the same `added`, `modified` and `deleted` books
(hence the same returned `added` order) and the same ordered progress-call
trace.  Consequently the canonically reordered graphs agree, and the
reordered key order is the depth-first pre-order pass from the entry
points, skipping already-visited records. -/
theorem traversal_schedule_independent
    (w : World) (g : Graph) (paths : List Path) (sched1 sched2 : Nat → Nat)
    (n1 n2 : Nat) (t1 t2 : TState) (log1 log2 : List Path)
    (h1 : runT w sched1 n1 (initM g paths) = .ok (t1, log1))
    (h2 : runT w sched2 n2 (initM g paths) = .ok (t2, log2)) :
    t1 = t2 ∧ reorderGraph t1.graph = reorderGraph t2.graph ∧
      (reorderGraph t1.graph).dependencies =
        dfsAux t1.graph.dependencies t1.graph.entryPoints := by
  have hb : BufOk w (initM g paths).buf := by
    intro p rd hp
    simp [initM, jsGet] at hp
  have r1 := runT_refines_runP n1 w sched1 _ t1 log1 h1 hb (max n1 n2)
    (Nat.le_max_left _ _)
  have r2 := runT_refines_runP n2 w sched2 _ t2 log2 h2 hb (max n1 n2)
    (Nat.le_max_right _ _)
  rw [r1] at r2
  injection r2 with r2
  refine ⟨r2, by rw [r2], ?_⟩
  rw [reorderGraph_eq]

/-- C1 witness: on the jitter fixture the two schedules complete the
in-flight shallow resolutions in genuinely different orders (`/foo` before
`/bar` against `/bar` before `/foo`), yet the final engine states coincide
and the reordered keys iterate as the depth-first pre-order
`[/bundle, /foo, /baz, /bar]` (`/baz` reached through `/foo`, skipped when
reached again through `/bar`); on the incremental add-and-modify batch
(prior fixture graph, dirty set `[/foo, /bar, /baz]`) the two scheduled
runs also coincide and agree with the serialized engine's graph, `added`
order and progress trace. -/
theorem traversal_schedule_independent_witness :
    runT jitterWorld schedOldest 60 (initMInitial jitterGraph) = .ok jitterPair1 ∧
      runT jitterWorld schedSecond 60 (initMInitial jitterGraph) = .ok jitterPair2 ∧
      jitterPair1.2 = ["/bundle", "/foo", "/bar", "/baz"] ∧
      jitterPair2.2 = ["/bundle", "/bar", "/foo", "/baz"] ∧
      jitterPair1.2 ≠ jitterPair2.2 ∧
      (reorderGraph jitterPair1.1.graph).dependencies.map (fun e => e.1) =
        ["/bundle", "/foo", "/baz", "/bar"] ∧
      runT addModifyEnv.world schedOldest 80 (initM initialGraph addModifyEnv.files) =
        .ok addModPair1 ∧
      runT addModifyEnv.world schedSecond 80 (initM initialGraph addModifyEnv.files) =
        .ok addModPair2 ∧
      addModPair1.1.graph = addModifyResult.graph ∧
      addModPair1.1.delta.added ++ addModPair1.1.delta.modified.filter
        (fun q => ¬ q ∈ addModPair1.1.delta.added) = addModifyResult.added ∧
      addModPair1.1.prog.trace = addModifyResult.trace ∧
      jitterPair1.1 = jitterPair2.1 ∧
      addModPair1.1 = addModPair2.1 :=
  ⟨rfl, rfl, rfl, rfl, by decide, rfl, rfl, rfl, rfl, rfl, rfl,
    (traversal_schedule_independent jitterWorld
      (jitterGraph.entryPoints.foldl createRecord jitterGraph)
      jitterGraph.entryPoints schedOldest schedSecond 60 60
      jitterPair1.1 jitterPair2.1 jitterPair1.2 jitterPair2.2 rfl rfl).1,
    (traversal_schedule_independent addModifyEnv.world initialGraph
      addModifyEnv.files schedOldest schedSecond 80 80
      addModPair1.1 addModPair2.1 addModPair1.2 addModPair2.2 rfl rfl).1⟩

/-! Progress channel invariants. -/

theorem goodProg_start : GoodProg ⟨0, 0, []⟩ := by
  refine ⟨rfl, ?_, List.chain'_nil, rfl⟩
  intro i hi
  cases hi

theorem get_append_left2 {α : Type} :
    ∀ (l1 l2 : List α) (i : Nat) (h1 : i < l1.length)
      (h : i < (l1 ++ l2).length),
      (l1 ++ l2).get ⟨i, h⟩ = l1.get ⟨i, h1⟩ := by
  intro l1
  induction l1 with
  | nil =>
    intro l2 i h1
    cases h1
  | cons a t ih =>
    intro l2 i h1 h
    cases i with
    | zero => rfl
    | succ j => exact ih l2 j (Nat.lt_of_succ_lt_succ h1) _

theorem get_append_last {α : Type} :
    ∀ (l : List α) (x : α) (h : l.length < (l ++ [x]).length),
      (l ++ [x]).get ⟨l.length, h⟩ = x := by
  intro l x
  induction l with
  | nil => intro h; rfl
  | cons a t ih => intro h; exact ih _

theorem getLastD_eq_getD_getLast? {α : Type} (l : List α) (d : α) :
    l.getLastD d = (l.getLast?).getD d :=
  List.getLastD_eq_getLast? d l

theorem chain_concat {l : List (Nat × Nat)} {d x : Nat × Nat}
    (hc : List.Chain' (· ≤ ·) l) (hl : l.getLastD d = x)
    {y : Nat × Nat} (hxy : x ≤ y) :
    List.Chain' (· ≤ ·) (l ++ [y]) := by
  rw [List.chain'_append]
  refine ⟨hc, List.chain'_singleton y, ?_⟩
  intro a ha b hb
  simp only [List.head?_cons, Option.mem_def, Option.some.injEq] at hb
  subst hb
  have hx : a = x := by
    rw [getLastD_eq_getD_getLast?] at hl
    rw [Option.mem_def.mp ha] at hl
    simpa using hl
  exact hx ▸ hxy

theorem getLastD_concat2 {l : List (Nat × Nat)} (d x : Nat × Nat) :
    (l ++ [x]).getLastD d = x := by
  simp [List.getLastD_concat]

theorem goodProg_emit_sums {pr : Prog} (hg : GoodProg pr) {x : Nat × Nat}
    (hx : x.1 + x.2 = pr.trace.length + 1) :
    ∀ i (hi : i < (pr.trace ++ [x]).length),
      ((pr.trace ++ [x]).get ⟨i, hi⟩).1 + ((pr.trace ++ [x]).get ⟨i, hi⟩).2 =
        i + 1 := by
  intro i hi
  rcases Nat.lt_or_ge i pr.trace.length with hlt | hge
  · rw [get_append_left2 pr.trace [x] i hlt hi]
    exact hg.sums i hlt
  · have hie : i = pr.trace.length := by
      simp only [List.length_append, List.length_singleton] at hi
      omega
    subst hie
    rw [get_append_last pr.trace x hi]
    exact hx

theorem goodProg_emitDisc {pr : Prog} (h : GoodProg pr) :
    GoodProg (emitDisc pr) := by
  unfold emitDisc
  refine ⟨?_, ?_, ?_, ?_⟩
  · simp only [List.length_append, List.length_singleton]
    rw [h.count]
    omega
  · exact goodProg_emit_sums h (by rw [h.count]; omega)
  · exact chain_concat h.chain h.lastEq ⟨Nat.le_refl _, Nat.le_succ _⟩
  · exact getLastD_concat2 _ _

theorem goodProg_emitFin {pr : Prog} (h : GoodProg pr) :
    GoodProg (emitFin pr) := by
  unfold emitFin
  refine ⟨?_, ?_, ?_, ?_⟩
  · simp only [List.length_append, List.length_singleton]
    rw [h.count]
    omega
  · exact goodProg_emit_sums h (by rw [h.count]; omega)
  · exact chain_concat h.chain h.lastEq ⟨Nat.le_succ _, Nat.le_refl _⟩
  · exact getLastD_concat2 _ _

/-- Edge removal never emits progress. -/
theorem removeEdge_prog_eq :
    ∀ (fuel : Nat) (st : TState) (parentPath target : Path) (st2 : TState),
      removeEdgeF fuel st parentPath target = .ok st2 → st2.prog = st.prog := by
  intro fuel
  induction fuel with
  | zero =>
    intro st parentPath target st2 h
    simp [removeEdgeF] at h
  | succ f ih =>
    intro st parentPath target st2 h
    simp only [removeEdgeF] at h
    split at h
    · cases h
      rfl
    · next m hm =>
      split at h
      · refine foldlM_except_inv (P := fun s => s.prog = st.prog) ?_ _ _ st2 h rfl
        intro s b s2 hs hp
        rw [ih s target b s2 hs]
        exact hp
      · cases h
        rfl

theorem progStep_refl (pr : Prog) : ProgStep pr pr :=
  ⟨fun hg => hg, Nat.add_comm _ _⟩

theorem progStep_trans {a b c : Prog} (h1 : ProgStep a b) (h2 : ProgStep b c) :
    ProgStep a c := by
  refine ⟨fun hg => h2.1 (h1.1 hg), ?_⟩
  have hb1 := h1.2
  have hb2 := h2.2
  omega

/-- The module-processing operations preserve the progress relation. -/
theorem engine_prog_ok :
    ∀ fuel : Nat,
      (∀ w st p st2, processModuleF fuel w st p = .ok st2 →
        ProgStep st.prog st2.prog) ∧
      (∀ w st parentPath target st2,
        addDependencyF fuel w st parentPath target = .ok st2 →
        ProgStep st.prog st2.prog) := by
  intro fuel
  induction fuel with
  | zero =>
    constructor
    · intro w st p st2 h
      simp [processModuleF] at h
    · intro w st parentPath target st2 h
      simp [addDependencyF] at h
  | succ f ih =>
    obtain ⟨ihP, ihA⟩ := ih
    constructor
    · intro w st p st2 h
      simp only [processModuleF] at h
      obtain ⟨rd, hrd, h1⟩ := except_bind_ok h
      obtain ⟨st1, hfold1, h2⟩ := except_bind_ok h1
      obtain ⟨st2p, hfold2, h3⟩ := except_bind_ok h2
      injection h3 with h3
      subst h3
      have s1 : ProgStep st.prog st1.prog := by
        refine foldlM_except_inv (P := fun s => ProgStep st.prog s.prog) ?_ _ _
          st1 hfold1 (progStep_refl _)
        intro s b s2 hs hp
        exact progStep_trans hp (ihA w s p b.2 s2 hs)
      have s2 : ProgStep st1.prog st2p.prog := by
        refine foldlM_except_inv (P := fun s => ProgStep st1.prog s.prog) ?_ _ _
          st2p hfold2 (progStep_refl _)
        intro s b s2 hs hp
        refine progStep_trans hp ?_
        rw [removeEdge_prog_eq f s p b.2 s2 hs]
        exact progStep_refl _
      have s3 : ProgStep st2p.prog (replaceRecord st2p p rd.1 rd.2).prog := by
        cases hg : jsGet st2p.graph.dependencies p with
        | none =>
          rw [replaceRecord, hg]
          exact progStep_refl _
        | some m =>
          rw [replaceRecord, hg]
          exact progStep_refl _
      exact progStep_trans (progStep_trans s1 s2) s3
    · intro w st parentPath target st2 h
      simp only [addDependencyF] at h
      split at h
      · cases h
        exact progStep_refl _
      · next hm =>
        obtain ⟨st2i, hproc, h2⟩ := except_bind_ok h
        injection h2 with h2
        subst h2
        have smid := ihP w _ target st2i hproc
        refine ⟨fun hg => ?_, ?_⟩
        · exact goodProg_emitFin (smid.1 (goodProg_emitDisc hg))
        · have hb := smid.2
          simp only [emitDisc, emitFin] at hb ⊢
          omega

/-- The dirty-path loop preserves the progress relation. -/
theorem traverse_list_prog :
    ∀ (paths : List Path) (fuel : Nat) (w : World) (st st2 : TState),
      traverseListF fuel w st paths = .ok st2 →
      ProgStep st.prog st2.prog := by
  intro paths
  induction paths with
  | nil =>
    intro fuel w st st2 h
    simp only [traverseListF] at h
    cases h
    exact progStep_refl _
  | cons p rest ih =>
    intro fuel w st st2 h
    simp only [traverseListF] at h
    split at h
    · next m hm =>
      obtain ⟨st2i, hproc, hrest⟩ := except_bind_ok h
      have smid := (engine_prog_ok fuel).1 w _ p st2i hproc
      have srest := ih fuel w _ st2 hrest
      refine progStep_trans ?_ srest
      refine ⟨fun hg => ?_, ?_⟩
      · exact goodProg_emitFin (smid.1 (goodProg_emitDisc hg))
      · have hb := smid.2
        simp only [emitDisc, emitFin] at hb ⊢
        omega
    · next hm =>
      split at h
      · next hpe =>
        obtain ⟨st2i, hproc, hrest⟩ := except_bind_ok h
        have smid := (engine_prog_ok fuel).1 w _ p st2i hproc
        have srest := ih fuel w _ st2 hrest
        refine progStep_trans ?_ srest
        refine ⟨fun hg => ?_, ?_⟩
        · exact goodProg_emitFin (smid.1 (goodProg_emitDisc hg))
        · have hb := smid.2
          simp only [emitDisc, emitFin] at hb ⊢
          omega
      · exact ih fuel w st st2 h

/-- C10: with a progress sink supplied, a traversal reports exactly twice
per module processed — the final counters agree on some `n` with `2 * n`
calls in total, so each module accounts for one discovery and one finish
report — and across the call sequence both reported numbers are
non-decreasing while their sum increases by exactly one per call, the i-th
call summing to `i`. -/
theorem progress_twice_per_module_monotone_sum
    (fuel : Nat) (w : World) (g : Graph) (r : TraverseResult)
    (h : (initialTraverseDependencies fuel w g).2 = .ok r) :
    List.Pairwise (· ≤ ·) r.trace ∧
      (∀ i (hi : i < r.trace.length),
        (r.trace.get ⟨i, hi⟩).1 + (r.trace.get ⟨i, hi⟩).2 = i + 1) ∧
      ∃ n, r.trace.length = 2 * n ∧ r.trace.getLastD (0, 0) = (n, n) := by
  unfold initialTraverseDependencies at h
  split at h
  · next st htr =>
    injection h with h
    subst h
    have hps := traverse_list_prog g.entryPoints fuel w _ st htr
    have hgood := hps.1 goodProg_start
    have hbal : st.prog.finishedCount = st.prog.discoveredCount := by
      have hb := hps.2
      simp only [emptyTState] at hb
      omega
    refine ⟨List.chain'_iff_pairwise.mp hgood.chain, hgood.sums,
      st.prog.finishedCount, ?_, ?_⟩
    · rw [hgood.count]
      omega
    · rw [hgood.lastEq, hbal]
  · simp at h

/-- C10 witness: the initial traversal of the fixture makes exactly eight
progress calls for its four modules, with the exact trace
`(0,1) (0,2) (0,3) (1,3) (1,4) (2,4) (3,4) (4,4)`, monotone and summing to
the call index. -/
theorem progress_twice_per_module_monotone_sum_witness :
    (initialTraverseDependencies fuel0 baseEnv.world baseGraph).2 =
        .ok initialResult ∧
      initialResult.trace =
        [(0, 1), (0, 2), (0, 3), (1, 3), (1, 4), (2, 4), (3, 4), (4, 4)] ∧
      initialResult.trace.length =
        2 * initialResult.graph.dependencies.length ∧
      (List.Pairwise (· ≤ ·) initialResult.trace ∧
        (∀ i (hi : i < initialResult.trace.length),
          (initialResult.trace.get ⟨i, hi⟩).1 +
            (initialResult.trace.get ⟨i, hi⟩).2 = i + 1) ∧
        ∃ n, initialResult.trace.length = 2 * n ∧
          initialResult.trace.getLastD (0, 0) = (n, n)) :=
  ⟨rfl, rfl, rfl,
    progress_twice_per_module_monotone_sum fuel0 baseEnv.world baseGraph
      initialResult rfl⟩

/-! Discovery bookkeeping and store monotonicity: C2 support. -/

/-- A progress-channel change preserves the discovery bookkeeping. -/
theorem discInv_prog {g0 : Graph} {st : TState} (hd : DiscInv g0 st) (pr : Prog) :
    DiscInv g0 { st with prog := pr } :=
  ⟨hd.modifiedNodup, hd.modifiedPresent, hd.newBooked, hd.modifiedOld⟩

/-- Replacing a present record preserves the discovery bookkeeping. -/
theorem discInv_setRecord {g0 : Graph} {st : TState} {q : Path} {m : ModuleData}
    (hm : jsGet st.graph.dependencies q = some m) (m2 : ModuleData)
    (hd : DiscInv g0 st) : DiscInv g0 (setRecord' st q m2) := by
  refine ⟨hd.modifiedNodup, ?_, ?_, hd.modifiedOld⟩
  · intro p hp
    obtain ⟨mp, hmp⟩ := hd.modifiedPresent p hp
    by_cases hpq : p = q
    · subst hpq
      exact ⟨m2, jsGet_jsSet_self _ _ _⟩
    · refine ⟨mp, ?_⟩
      show jsGet (jsSet st.graph.dependencies q m2) p = some mp
      rw [jsGet_jsSet_ne _ _ hpq]
      exact hmp
  · intro p hp hg0
    obtain ⟨mp, hmp⟩ := hp
    by_cases hpq : p = q
    · subst hpq
      exact hd.newBooked p ⟨m, hm⟩ hg0
    · have hmp2 : jsGet (jsSet st.graph.dependencies q m2) p = some mp := hmp
      rw [jsGet_jsSet_ne _ _ hpq] at hmp2
      exact hd.newBooked p ⟨mp, hmp2⟩ hg0

/-- Lookup in a store extended by one fresh record: either the fresh key
with the fresh record, or an old key with its old record. -/
theorem jsGet_append_single_cases {α : Type} {l : List (String × α)} {k q : String}
    {v m : α} (hk : jsGet l k = none)
    (h : jsGet (l ++ [(k, v)]) q = some m) :
    (q = k ∧ m = v) ∨ (q ≠ k ∧ jsGet l q = some m) := by
  by_cases hqk : q = k
  · subst hqk
    rw [jsGet_append_single_self hk] at h
    injection h with h
    exact Or.inl ⟨rfl, h.symm⟩
  · cases hlq : jsGet l q with
    | none =>
      rw [jsGet_append_single_ne (fun hh => hqk hh.symm) hlq] at h
      cases h
    | some x =>
      rw [jsGet_append_of_some hlq] at h
      injection h with h
      refine Or.inr ⟨hqk, ?_⟩
      rw [h]

/-- Preservation of the discovery bookkeeping by the engine operations, by
induction on the fuel of the mutual recursion. -/
theorem engine_disc_ok (g0 : Graph) :
    ∀ fuel : Nat,
      (∀ st parentPath target st2,
          removeEdgeF fuel st parentPath target = .ok st2 →
          DiscInv g0 st → DiscInv g0 st2) ∧
      (∀ w st p st2, processModuleF fuel w st p = .ok st2 →
          DiscInv g0 st → DiscInv g0 st2) ∧
      (∀ w st parentPath target st2,
          addDependencyF fuel w st parentPath target = .ok st2 →
          DiscInv g0 st → DiscInv g0 st2) := by
  intro fuel
  induction fuel with
  | zero =>
    refine ⟨?_, ?_, ?_⟩
    · intro st parentPath target st2 h
      simp [removeEdgeF] at h
    · intro w st p st2 h
      simp [processModuleF] at h
    · intro w st parentPath target st2 h
      simp [addDependencyF] at h
  | succ f ih =>
    obtain ⟨ihR, ihP, ihA⟩ := ih
    refine ⟨?_, ?_, ?_⟩
    · intro st parentPath target st2 h hd
      simp only [removeEdgeF] at h
      split at h
      · cases h
        exact hd
      · next m hm =>
        split at h
        · have hstep : DiscInv g0
              { graph := { st.graph with
                  dependencies := jsDelete st.graph.dependencies target }
                delta := { added := st.delta.added.erase target
                           modified := st.delta.modified.erase target
                           deleted := jsSetAdd st.delta.deleted target }
                prog := st.prog } := by
            refine ⟨hd.modifiedNodup.erase _, ?_, ?_, ?_⟩
            · intro p hp
              have hpm := List.mem_of_mem_erase hp
              have hpt : p ≠ target := (hd.modifiedNodup.mem_erase_iff.mp hp).1
              obtain ⟨mp, hmp⟩ := hd.modifiedPresent p hpm
              refine ⟨mp, ?_⟩
              show jsGet (jsDelete st.graph.dependencies target) p = some mp
              rw [jsGet_jsDelete_ne _ (Ne.symm hpt)]
              exact hmp
            · intro p hp hg0
              obtain ⟨mp, hmp⟩ := hp
              have hpt : p ≠ target := by
                intro hh
                subst hh
                have hmpx : jsGet (jsDelete st.graph.dependencies p) p = some mp := hmp
                rw [jsGet_jsDelete_self] at hmpx
                cases hmpx
              have hmp2 : jsGet (jsDelete st.graph.dependencies target) p = some mp := hmp
              rw [jsGet_jsDelete_ne _ (Ne.symm hpt)] at hmp2
              rcases hd.newBooked p ⟨mp, hmp2⟩ hg0 with h1 | h1
              · exact Or.inl ((List.mem_erase_of_ne hpt).mpr h1)
              · exact Or.inr ⟨h1.1, (List.mem_erase_of_ne hpt).mpr h1.2⟩
            · intro p hp
              have hpm := List.mem_of_mem_erase hp
              have hpt : p ≠ target := (hd.modifiedNodup.mem_erase_iff.mp hp).1
              rcases hd.modifiedOld p hpm with h1 | h1 | h1
              · exact Or.inl h1
              · exact Or.inr (Or.inl h1)
              · exact Or.inr (Or.inr ((List.mem_erase_of_ne hpt).mpr h1))
          refine foldlM_except_inv (P := DiscInv g0) ?_ _ _ st2 h hstep
          intro s b s2 hs hp
          exact ihR s target b s2 hs hp
        · cases h
          exact discInv_setRecord hm _ hd
    · intro w st p st2 h hd
      simp only [processModuleF] at h
      obtain ⟨rd, hrd, h1⟩ := except_bind_ok h
      obtain ⟨st1, hfold1, h2⟩ := except_bind_ok h1
      obtain ⟨st2p, hfold2, h3⟩ := except_bind_ok h2
      injection h3 with h3
      subst h3
      have d1 : DiscInv g0 st1 := by
        refine foldlM_except_inv (P := DiscInv g0) ?_ _ _ st1 hfold1 hd
        intro s b s2 hs hp
        exact ihA w s p b.2 s2 hs hp
      have d2 : DiscInv g0 st2p := by
        refine foldlM_except_inv (P := DiscInv g0) ?_ _ _ st2p hfold2 d1
        intro s b s2 hs hp
        exact ihR s p b.2 s2 hs hp
      cases hg : jsGet st2p.graph.dependencies p with
      | none =>
        rw [replaceRecord, hg]
        exact d2
      | some mm =>
        rw [replaceRecord, hg]
        exact discInv_setRecord hg _ d2
    · intro w st parentPath target st2 h hd
      simp only [addDependencyF] at h
      split at h
      · next m hm =>
        cases h
        exact discInv_setRecord hm _ hd
      · next hm =>
        obtain ⟨st2i, hproc, h2⟩ := except_bind_ok h
        injection h2 with h2
        subst h2
        have hstep : DiscInv g0
            { graph := { st.graph with dependencies := st.graph.dependencies ++
                [(target, { path := target, dependencies := []
                            inverseDependencies := [parentPath]
                            output := defaultOutput })] }
              delta := { st.delta with added := jsSetAdd st.delta.added target
                                       deleted := st.delta.deleted.erase target }
              prog := emitDisc st.prog } := by
          refine ⟨hd.modifiedNodup, ?_, ?_, ?_⟩
          · intro p hp
            obtain ⟨mp, hmp⟩ := hd.modifiedPresent p hp
            exact ⟨mp, jsGet_append_of_some hmp _⟩
          · intro p hp hg0
            obtain ⟨mp, hmp⟩ := hp
            rcases jsGet_append_single_cases hm hmp with ⟨hpt, _⟩ | ⟨hpt, hp2⟩
            · subst hpt
              exact Or.inl (mem_jsSetAdd.mpr (Or.inr rfl))
            · rcases hd.newBooked p ⟨mp, hp2⟩ hg0 with h1 | h1
              · exact Or.inl (mem_jsSetAdd.mpr (Or.inl h1))
              · exact Or.inr h1
          · intro p hp
            rcases hd.modifiedOld p hp with h1 | h1 | h1
            · exact Or.inl h1
            · exact Or.inr (Or.inl h1)
            · exact Or.inr (Or.inr (mem_jsSetAdd.mpr (Or.inl h1)))
        exact discInv_prog (ihP w _ target st2i hproc hstep) _

/-- The dirty-path loop preserves the discovery bookkeeping. -/
theorem traverse_list_disc (g0 : Graph) :
    ∀ (paths : List Path) (fuel : Nat) (w : World) (st st2 : TState),
      traverseListF fuel w st paths = .ok st2 →
      DiscInv g0 st → DiscInv g0 st2 := by
  intro paths
  induction paths with
  | nil =>
    intro fuel w st st2 h hd
    simp only [traverseListF] at h
    cases h
    exact hd
  | cons p rest ih =>
    intro fuel w st st2 h hd
    simp only [traverseListF] at h
    split at h
    · next m hm =>
      obtain ⟨st2i, hproc, hrest⟩ := except_bind_ok h
      have hd1 : DiscInv g0
          { graph := st.graph
            delta := { added := st.delta.added
                       modified := jsSetAdd st.delta.modified p
                       deleted := st.delta.deleted }
            prog := emitDisc st.prog } := by
        refine ⟨nodup_jsSetAdd _ hd.modifiedNodup, ?_, ?_, ?_⟩
        · intro q hq
          rcases mem_jsSetAdd.mp hq with h1 | h1
          · exact hd.modifiedPresent q h1
          · subst h1
            exact ⟨m, hm⟩
        · intro q hq hg0
          rcases hd.newBooked q hq hg0 with h1 | h1
          · exact Or.inl h1
          · exact Or.inr ⟨h1.1, mem_jsSetAdd.mpr (Or.inl h1.2)⟩
        · intro q hq
          rcases mem_jsSetAdd.mp hq with h1 | h1
          · exact hd.modifiedOld q h1
          · subst h1
            cases hg0q : jsGet g0.dependencies q with
            | some m0 => exact Or.inl ⟨m0, rfl⟩
            | none =>
              rcases hd.newBooked q ⟨m, hm⟩ hg0q with h2 | h2
              · exact Or.inr (Or.inr h2)
              · exact Or.inr (Or.inl h2.1)
      have hd2 := (engine_disc_ok g0 fuel).2.1 w _ p st2i hproc hd1
      exact ih fuel w _ st2 hrest (discInv_prog hd2 _)
    · next hm =>
      split at h
      · next hpe =>
        obtain ⟨st2i, hproc, hrest⟩ := except_bind_ok h
        have hcr : createRecord st.graph p =
            { st.graph with dependencies :=
                st.graph.dependencies ++ [(p, emptyModule p)] } := by
          rw [createRecord, hm]
        have hd1 : DiscInv g0
            { graph := createRecord st.graph p
              delta := { added := st.delta.added
                         modified := jsSetAdd st.delta.modified p
                         deleted := st.delta.deleted }
              prog := emitDisc st.prog } := by
          refine ⟨nodup_jsSetAdd _ hd.modifiedNodup, ?_, ?_, ?_⟩
          · intro q hq
            rcases mem_jsSetAdd.mp hq with h1 | h1
            · obtain ⟨mq, hmq⟩ := hd.modifiedPresent q h1
              refine ⟨mq, ?_⟩
              show jsGet (createRecord st.graph p).dependencies q = some mq
              rw [hcr]
              exact jsGet_append_of_some hmq _
            · subst h1
              refine ⟨emptyModule q, ?_⟩
              show jsGet (createRecord st.graph q).dependencies q = some (emptyModule q)
              rw [hcr]
              exact jsGet_append_single_self hm _
          · intro q hq hg0
            obtain ⟨mq, hmq⟩ := hq
            rw [hcr] at hmq
            have hmq2 : jsGet (st.graph.dependencies ++ [(p, emptyModule p)]) q =
                some mq := hmq
            rcases jsGet_append_single_cases hm hmq2 with ⟨hqp, _⟩ | ⟨hqp, hq2⟩
            · subst hqp
              refine Or.inr ⟨?_, mem_jsSetAdd.mpr (Or.inr rfl)⟩
              show q ∈ (createRecord st.graph q).entryPoints
              rw [hcr]
              exact hpe
            · rcases hd.newBooked q ⟨mq, hq2⟩ hg0 with h1 | h1
              · exact Or.inl h1
              · refine Or.inr ⟨?_, mem_jsSetAdd.mpr (Or.inl h1.2)⟩
                show q ∈ (createRecord st.graph p).entryPoints
                rw [hcr]
                exact h1.1
          · intro q hq
            rcases mem_jsSetAdd.mp hq with h1 | h1
            · rcases hd.modifiedOld q h1 with h2 | h2 | h2
              · exact Or.inl h2
              · refine Or.inr (Or.inl ?_)
                show q ∈ (createRecord st.graph p).entryPoints
                rw [hcr]
                exact h2
              · exact Or.inr (Or.inr h2)
            · subst h1
              refine Or.inr (Or.inl ?_)
              show q ∈ (createRecord st.graph q).entryPoints
              rw [hcr]
              exact hpe
        have hd2 := (engine_disc_ok g0 fuel).2.1 w _ p st2i hproc hd1
        exact ih fuel w _ st2 hrest (discInv_prog hd2 _)
      · exact ih fuel w st st2 h hd

/-- The discovery bookkeeping holds at the start of a call against its own
pre-call graph. -/
theorem discInv_empty (g : Graph) : DiscInv g (emptyTState g) := by
  refine ⟨List.nodup_nil, ?_, ?_, ?_⟩
  · intro p hp
    cases hp
  · intro p hp hg0
    obtain ⟨m, hm⟩ := hp
    have hm2 : jsGet g.dependencies p = some m := hm
    rw [hg0] at hm2
    cases hm2
  · intro p hp
    cases hp

/-- Edge removal only shrinks the re-transformed book, as a subsequence. -/
theorem removeEdge_modified_sublist :
    ∀ (fuel : Nat) (st : TState) (parentPath target : Path) (st2 : TState),
      removeEdgeF fuel st parentPath target = .ok st2 →
      List.Sublist st2.delta.modified st.delta.modified := by
  intro fuel
  induction fuel with
  | zero =>
    intro st parentPath target st2 h
    simp [removeEdgeF] at h
  | succ f ih =>
    intro st parentPath target st2 h
    simp only [removeEdgeF] at h
    split at h
    · cases h
      exact List.Sublist.refl _
    · next m hm =>
      split at h
      · refine foldlM_except_inv
          (P := fun s => List.Sublist s.delta.modified st.delta.modified) ?_ _ _ st2 h
          (List.erase_sublist _ _)
        intro s b s2 hs hp
        exact List.Sublist.trans (ih s target b s2 hs) hp
      · cases h
        exact List.Sublist.refl _

/-- Module processing only shrinks the re-transformed book. -/
theorem engine_modified_sublist :
    ∀ fuel : Nat,
      (∀ w st p st2, processModuleF fuel w st p = .ok st2 →
        List.Sublist st2.delta.modified st.delta.modified) ∧
      (∀ w st parentPath target st2,
        addDependencyF fuel w st parentPath target = .ok st2 →
        List.Sublist st2.delta.modified st.delta.modified) := by
  intro fuel
  induction fuel with
  | zero =>
    constructor
    · intro w st p st2 h
      simp [processModuleF] at h
    · intro w st parentPath target st2 h
      simp [addDependencyF] at h
  | succ f ih =>
    obtain ⟨ihP, ihA⟩ := ih
    constructor
    · intro w st p st2 h
      simp only [processModuleF] at h
      obtain ⟨rd, hrd, h1⟩ := except_bind_ok h
      obtain ⟨st1, hfold1, h2⟩ := except_bind_ok h1
      obtain ⟨st2p, hfold2, h3⟩ := except_bind_ok h2
      injection h3 with h3
      subst h3
      have s1 : List.Sublist st1.delta.modified st.delta.modified := by
        refine foldlM_except_inv
          (P := fun s => List.Sublist s.delta.modified st.delta.modified) ?_ _ _ st1
          hfold1 (List.Sublist.refl _)
        intro s b s2 hs hp
        exact List.Sublist.trans (ihA w s p b.2 s2 hs) hp
      have s2 : List.Sublist st2p.delta.modified st1.delta.modified := by
        refine foldlM_except_inv
          (P := fun s => List.Sublist s.delta.modified st1.delta.modified) ?_ _ _ st2p
          hfold2 (List.Sublist.refl _)
        intro s b s2 hs hp
        exact List.Sublist.trans (removeEdge_modified_sublist f s p b.2 s2 hs) hp
      have s3 : (replaceRecord st2p p rd.1 rd.2).delta.modified =
          st2p.delta.modified := by
        cases hg : jsGet st2p.graph.dependencies p with
        | none =>
          rw [replaceRecord, hg]
        | some mm =>
          rw [replaceRecord, hg]
          rfl
      rw [s3]
      exact List.Sublist.trans s2 s1
    · intro w st parentPath target st2 h
      simp only [addDependencyF] at h
      split at h
      · cases h
        exact List.Sublist.refl _
      · next hm =>
        obtain ⟨st2i, hproc, h2⟩ := except_bind_ok h
        injection h2 with h2
        subst h2
        have h1 := ihP w _ target st2i hproc
        exact h1

/-- Across the dirty loop, the re-transformed book is a subsequence of the
incoming book followed by the dirty list, in order. -/
theorem traverse_list_modified_sublist :
    ∀ (paths : List Path) (fuel : Nat) (w : World) (st st2 : TState),
      traverseListF fuel w st paths = .ok st2 →
      List.Sublist st2.delta.modified (st.delta.modified ++ paths) := by
  intro paths
  induction paths with
  | nil =>
    intro fuel w st st2 h
    simp only [traverseListF] at h
    cases h
    rw [List.append_nil]
  | cons p rest ih =>
    intro fuel w st st2 h
    have hstep : ∀ (sti st2i : TState),
        sti.delta.modified = jsSetAdd st.delta.modified p →
        processModuleF fuel w sti p = .ok st2i →
        traverseListF fuel w { st2i with prog := emitFin st2i.prog } rest = .ok st2 →
        List.Sublist st2.delta.modified (st.delta.modified ++ p :: rest) := by
      intro sti st2i hmodeq hproc hrest
      have h1 := (engine_modified_sublist fuel).1 w sti p st2i hproc
      rw [hmodeq] at h1
      have h2 := ih fuel w _ st2 hrest
      have h3 : List.Sublist (jsSetAdd st.delta.modified p ++ rest)
          (st.delta.modified ++ p :: rest) := by
        unfold jsSetAdd
        by_cases hp : p ∈ st.delta.modified
        · rw [if_pos hp]
          exact List.Sublist.append_left (List.sublist_cons_self _ _) _
        · rw [if_neg hp, List.append_assoc]
          exact List.Sublist.refl _
      refine List.Sublist.trans h2 ?_
      exact List.Sublist.trans (List.Sublist.append_right h1 rest) h3
    simp only [traverseListF] at h
    split at h
    · next m hm =>
      obtain ⟨st2i, hproc, hrest⟩ := except_bind_ok h
      exact hstep _ st2i rfl hproc hrest
    · next hm =>
      split at h
      · next hpe =>
        obtain ⟨st2i, hproc, hrest⟩ := except_bind_ok h
        exact hstep _ st2i rfl hproc hrest
      · have h2 := ih fuel w st st2 h
        refine List.Sublist.trans h2 ?_
        exact List.Sublist.append_left (List.sublist_cons_self _ _) _

/-- A progress-channel change preserves the monotone-store invariant. -/
theorem monoInv_prog {w : World} {g0 : Graph} {st : TState}
    (h : MonoInv w g0 st) (pr : Prog) : MonoInv w g0 { st with prog := pr } :=
  ⟨h.keysMono, h.storedOk, h.addedNew⟩

/-- Replacing a present record by one whose dependency list is still of an
allowed shape preserves the monotone-store invariant. -/
theorem monoInv_setRecord {w : World} {g0 : Graph} {st : TState} {q : Path}
    {m : ModuleData} (hm : jsGet st.graph.dependencies q = some m)
    (m2 : ModuleData)
    (hdeps : (∃ m0, jsGet g0.dependencies q = some m0 ∧
        m2.dependencies = m0.dependencies) ∨ m2.dependencies = [] ∨
      ∃ rd, resolveDependencies w q = .ok rd ∧ m2.dependencies = rd.1)
    (hmono : MonoInv w g0 st) : MonoInv w g0 (setRecord' st q m2) := by
  refine ⟨?_, ?_, hmono.addedNew⟩
  · intro x m0 hx
    obtain ⟨mx, hmx⟩ := hmono.keysMono x m0 hx
    by_cases hxq : x = q
    · subst hxq
      exact ⟨m2, jsGet_jsSet_self _ _ _⟩
    · refine ⟨mx, ?_⟩
      show jsGet (jsSet st.graph.dependencies q m2) x = some mx
      rw [jsGet_jsSet_ne _ _ hxq]
      exact hmx
  · intro x mx hx
    have hx2 : jsGet (jsSet st.graph.dependencies q m2) x = some mx := hx
    by_cases hxq : x = q
    · subst hxq
      rw [jsGet_jsSet_self] at hx2
      injection hx2 with hx2
      subst hx2
      exact hdeps
    · rw [jsGet_jsSet_ne _ _ hxq] at hx2
      exact hmono.storedOk x mx hx2

/-- The monotone-store invariant holds at the start of a call against its
own pre-call graph. -/
theorem monoInv_empty (w : World) (g : Graph) : MonoInv w g (emptyTState g) := by
  refine ⟨?_, ?_, ?_⟩
  · intro p m0 h
    exact ⟨m0, h⟩
  · intro p m h
    exact Or.inl ⟨m, h, rfl⟩
  · intro p hp
    cases hp

/-- Semantic reading of the edge-removal-free test. -/
theorem noRemovals_spec {w : World} {paths : List Path} {g : Graph}
    (hb : noRemovalsB w paths g = true) :
    ∀ p ∈ paths, ∀ m0, jsGet g.dependencies p = some m0 →
      ∀ rd, resolveDependencies w p = .ok rd →
      ∀ e ∈ m0.dependencies, e ∈ rd.1 := by
  intro p hp m0 hm0 rd hrd e he
  have h1 := List.all_eq_true.mp hb p hp
  rw [hm0, hrd] at h1
  exact of_decide_eq_true (List.all_eq_true.mp h1 e he)

/-- A dependency list contained in the fresh report leaves nothing to
remove. -/
theorem filter_not_mem_eq_nil {l sup : List (Name × Path)}
    (hsub : ∀ e ∈ l, e ∈ sup) : l.filter (fun e => ¬ e ∈ sup) = [] := by
  refine List.filter_eq_nil_iff.mpr ?_
  intro e he
  simp [hsub e he]

/-- Preservation of the monotone-store invariant by the engine operations of
an edge-removal-free batch: dirty modules (whose stored pairs all persist in
the fresh report) and freshly created modules never trigger a removal, so
the store only grows and every discovered path was absent before the call. -/
theorem engine_mono_ok (w : World) (g0 : Graph) (paths : List Path)
    (hnr : ∀ p ∈ paths, ∀ m0, jsGet g0.dependencies p = some m0 →
      ∀ rd, resolveDependencies w p = .ok rd →
      ∀ e ∈ m0.dependencies, e ∈ rd.1) :
    ∀ fuel : Nat,
      (∀ st p st2, processModuleF fuel w st p = .ok st2 →
        MonoInv w g0 st →
        (p ∈ paths ∨ ∀ m, jsGet st.graph.dependencies p = some m →
          m.dependencies = [] ∨
          ∃ rd, resolveDependencies w p = .ok rd ∧ m.dependencies = rd.1) →
        MonoInv w g0 st2) ∧
      (∀ st parentPath target st2,
        addDependencyF fuel w st parentPath target = .ok st2 →
        MonoInv w g0 st → MonoInv w g0 st2) := by
  intro fuel
  induction fuel with
  | zero =>
    constructor
    · intro st p st2 h
      simp [processModuleF] at h
    · intro st parentPath target st2 h
      simp [addDependencyF] at h
  | succ f ih =>
    obtain ⟨ihP, ihA⟩ := ih
    constructor
    · intro st p st2 h hmono hpre
      simp only [processModuleF] at h
      obtain ⟨rd, hrd, h1⟩ := except_bind_ok h
      obtain ⟨st1, hfold1, h2⟩ := except_bind_ok h1
      obtain ⟨st2p, hfold2, h3⟩ := except_bind_ok h2
      injection h3 with h3
      subst h3
      have hold : (((jsGet st.graph.dependencies p).map
          (fun m => m.dependencies)).getD []).filter
          (fun e => ¬ e ∈ rd.1) = [] := by
        cases hsp : jsGet st.graph.dependencies p with
        | none => simp
        | some m =>
          simp only [Option.map_some', Option.getD_some]
          refine filter_not_mem_eq_nil ?_
          rcases hpre with hpp | hpp
          · rcases hmono.storedOk p m hsp with hq | hq | hq
            · obtain ⟨m0, hg0, hdeps⟩ := hq
              rw [hdeps]
              exact hnr p hpp m0 hg0 rd hrd
            · rw [hq]
              intro e he
              cases he
            · obtain ⟨rd2, hrd2, hdeps⟩ := hq
              rw [hrd2] at hrd
              injection hrd with hrdq
              rw [hdeps, hrdq]
              intro e he
              exact he
          · rcases hpp m hsp with hq | hq
            · rw [hq]
              intro e he
              cases he
            · obtain ⟨rd2, hrd2, hdeps⟩ := hq
              rw [hrd2] at hrd
              injection hrd with hrdq
              rw [hdeps, hrdq]
              intro e he
              exact he
      rw [hold] at hfold2
      simp only [List.filter_nil, List.foldlM_nil] at hfold2
      injection hfold2 with hfold2
      subst hfold2
      have hm1 : MonoInv w g0 st1 := by
        refine foldlM_except_inv (P := MonoInv w g0) ?_ _ _ st1 hfold1 hmono
        intro s b s2 hs hp
        exact ihA s p b.2 s2 hs hp
      cases hg : jsGet st1.graph.dependencies p with
      | none =>
        rw [replaceRecord, hg]
        exact hm1
      | some mm =>
        rw [replaceRecord, hg]
        refine monoInv_setRecord hg _ ?_ hm1
        exact Or.inr (Or.inr ⟨rd, hrd, rfl⟩)
    · intro st parentPath target st2 h hmono
      simp only [addDependencyF] at h
      split at h
      · next m hm =>
        cases h
        refine monoInv_setRecord hm _ ?_ hmono
        have hq := hmono.storedOk target m hm
        rcases hq with hq | hq | hq
        · exact Or.inl hq
        · exact Or.inr (Or.inl hq)
        · exact Or.inr (Or.inr hq)
      · next hm =>
        obtain ⟨st2i, hproc, h2⟩ := except_bind_ok h
        injection h2 with h2
        subst h2
        have hstep : MonoInv w g0
            { graph := { st.graph with dependencies := st.graph.dependencies ++
                [(target, { path := target, dependencies := []
                            inverseDependencies := [parentPath]
                            output := defaultOutput })] }
              delta := { st.delta with added := jsSetAdd st.delta.added target
                                       deleted := st.delta.deleted.erase target }
              prog := emitDisc st.prog } := by
          refine ⟨?_, ?_, ?_⟩
          · intro q m0 hq
            obtain ⟨mq, hmq⟩ := hmono.keysMono q m0 hq
            exact ⟨mq, jsGet_append_of_some hmq _⟩
          · intro q mq hq
            rcases jsGet_append_single_cases hm hq with ⟨hqt, hmv⟩ | ⟨hqt, hq2⟩
            · subst hmv
              exact Or.inr (Or.inl rfl)
            · exact hmono.storedOk q mq hq2
          · intro q hq
            rcases mem_jsSetAdd.mp hq with h1 | h1
            · exact hmono.addedNew q h1
            · subst h1
              cases hg0 : jsGet g0.dependencies q with
              | none => rfl
              | some m0 =>
                obtain ⟨mq, hmq⟩ := hmono.keysMono q m0 hg0
                rw [hm] at hmq
                cases hmq
        refine monoInv_prog (ihP _ target st2i hproc hstep (Or.inr ?_)) _
        intro m hq
        rcases jsGet_append_single_cases hm hq with ⟨_, hmv⟩ | ⟨hqt, _⟩
        · subst hmv
          exact Or.inl rfl
        · exact absurd rfl hqt

/-- The dirty loop of an edge-removal-free batch preserves the
monotone-store invariant. -/
theorem traverse_list_mono (w : World) (g0 : Graph) (paths : List Path)
    (hnr : ∀ p ∈ paths, ∀ m0, jsGet g0.dependencies p = some m0 →
      ∀ rd, resolveDependencies w p = .ok rd →
      ∀ e ∈ m0.dependencies, e ∈ rd.1) :
    ∀ (l : List Path), (∀ p ∈ l, p ∈ paths) →
      ∀ (fuel : Nat) (st st2 : TState),
        traverseListF fuel w st l = .ok st2 →
        MonoInv w g0 st → MonoInv w g0 st2 := by
  intro l
  induction l with
  | nil =>
    intro hl fuel st st2 h hmono
    simp only [traverseListF] at h
    cases h
    exact hmono
  | cons p rest ih =>
    intro hl fuel st st2 h hmono
    have hp : p ∈ paths := hl p (List.mem_cons_self _ _)
    have hrests : ∀ q ∈ rest, q ∈ paths := fun q hq => hl q (List.mem_cons_of_mem _ hq)
    simp only [traverseListF] at h
    split at h
    · next m hm =>
      obtain ⟨st2i, hproc, hrest2⟩ := except_bind_ok h
      have hm1 : MonoInv w g0
          { graph := st.graph
            delta := { added := st.delta.added
                       modified := jsSetAdd st.delta.modified p
                       deleted := st.delta.deleted }
            prog := emitDisc st.prog } :=
        ⟨hmono.keysMono, hmono.storedOk, hmono.addedNew⟩
      have hm2 := (engine_mono_ok w g0 paths hnr fuel).1 _ p st2i hproc hm1 (Or.inl hp)
      exact ih hrests fuel _ st2 hrest2 (monoInv_prog hm2 _)
    · next hm =>
      split at h
      · next hpe =>
        obtain ⟨st2i, hproc, hrest2⟩ := except_bind_ok h
        have hcr : createRecord st.graph p =
            { st.graph with dependencies :=
                st.graph.dependencies ++ [(p, emptyModule p)] } := by
          rw [createRecord, hm]
        have hm1 : MonoInv w g0
            { graph := createRecord st.graph p
              delta := { added := st.delta.added
                         modified := jsSetAdd st.delta.modified p
                         deleted := st.delta.deleted }
              prog := emitDisc st.prog } := by
          refine ⟨?_, ?_, hmono.addedNew⟩
          · intro q m0 hq
            obtain ⟨mq, hmq⟩ := hmono.keysMono q m0 hq
            refine ⟨mq, ?_⟩
            show jsGet (createRecord st.graph p).dependencies q = some mq
            rw [hcr]
            exact jsGet_append_of_some hmq _
          · intro q mq hq
            rw [hcr] at hq
            have hq2 : jsGet (st.graph.dependencies ++ [(p, emptyModule p)]) q =
                some mq := hq
            rcases jsGet_append_single_cases hm hq2 with ⟨hqp, hmv⟩ | ⟨hqp, hq3⟩
            · subst hmv
              exact Or.inr (Or.inl rfl)
            · exact hmono.storedOk q mq hq3
        have hm2 := (engine_mono_ok w g0 paths hnr fuel).1 _ p st2i hproc hm1 (Or.inl hp)
        exact ih hrests fuel _ st2 hrest2 (monoInv_prog hm2 _)
      · exact ih hrests fuel st st2 h hmono

/-- C2: within one call to `traverse`, the returned `added` sequence splits
as the newly discovered block followed by the re-transformed block.  The
re-transformed block is a subsequence of the caller-supplied dirty list (so
it follows the dirty-set iteration order) and lists only modules the
pre-call graph already held (or dirty entry points); every reported path is
present in the post-call graph; every module absent before the call yet
present after it, other than a created entry point, lies in the first
block; and for a batch that removes no stored edge — where a release
followed by re-discovery cannot occur — every path of the first block is
newly discovered: the pre-call graph did not hold it. -/
theorem traverse_added_new_before_retransformed
    (fuel : Nat) (w : World) (paths : List Path) (g : Graph)
    (r : TraverseResult)
    (h : traverseDependencies fuel w paths g = .ok r) :
    ∃ A M, r.added = A ++ M ∧ (∀ p ∈ A, ¬ p ∈ M) ∧
      List.Sublist M paths ∧
      (∀ p ∈ M, (∃ m, jsGet g.dependencies p = some m) ∨ p ∈ g.entryPoints) ∧
      (∀ p ∈ r.added, ∃ m, jsGet r.graph.dependencies p = some m) ∧
      (∀ p, jsGet g.dependencies p = none →
        (∃ m, jsGet r.graph.dependencies p = some m) →
        ¬ p ∈ g.entryPoints → p ∈ A) ∧
      (noRemovalsB w paths g = true → ∀ p ∈ A, jsGet g.dependencies p = none) := by
  unfold traverseDependencies at h
  split at h
  · next st htr =>
    injection h with h
    subst h
    obtain ⟨hent, hmod, hinv⟩ := traverse_list_step paths fuel w _ st htr
    have hi := hinv (engInv_empty g)
    have hdisc := traverse_list_disc g paths fuel w _ st htr (discInv_empty g)
    have hsub0 := traverse_list_modified_sublist paths fuel w _ st htr
    have hentg : st.graph.entryPoints = g.entryPoints := hent
    refine ⟨st.delta.added,
      st.delta.modified.filter (fun q => ¬ q ∈ st.delta.added), rfl, ?_, ?_, ?_, ?_,
      ?_, ?_⟩
    · intro p hpA hpM
      have hp2 := (List.mem_filter.mp hpM).2
      simp only [decide_not, Bool.not_eq_true', decide_eq_false_iff_not] at hp2
      exact hp2 hpA
    · refine List.Sublist.trans (List.filter_sublist _) ?_
      simpa using hsub0
    · intro p hp
      have hp1 := List.mem_of_mem_filter hp
      have hp2 := (List.mem_filter.mp hp).2
      simp only [decide_not, Bool.not_eq_true', decide_eq_false_iff_not] at hp2
      rcases hdisc.modifiedOld p hp1 with h1 | h1 | h1
      · exact Or.inl h1
      · exact Or.inr (hentg ▸ h1)
      · exact absurd h1 hp2
    · intro p hp
      rcases List.mem_append.mp hp with h1 | h1
      · exact hi.addedPresent p h1
      · exact hdisc.modifiedPresent p (List.mem_of_mem_filter h1)
    · intro p hg0 hpr hpe
      rcases hdisc.newBooked p hpr hg0 with h1 | h1
      · exact h1
      · exact absurd (hentg ▸ h1.1) hpe
    · intro hb p hp
      have hmono := traverse_list_mono w g paths (noRemovals_spec hb) paths
        (fun q hq => hq) fuel _ st htr (monoInv_empty w g)
      exact hmono.addedNew p hp
  · cases h

/-- C2 witness: the fixture batch (adding `/qux` as a dependency of `/foo`
and dirtying `/bar` and `/baz`) removes no stored edge and yields `added`
in the exact order `[/qux, /foo, /bar, /baz]` — the newly discovered
`/qux`, absent from the prior graph, strictly before the re-transformed
dirty modules in dirty order, with the unchanged `/bar` and `/baz` still
booked; the claim theorem delivers the split. -/
theorem traverse_added_new_before_retransformed_witness :
    traverseDependencies fuel0 addModifyEnv.world addModifyEnv.files
        initialGraph = .ok addModifyResult ∧
      addModifyEnv.files = ["/foo", "/bar", "/baz"] ∧
      addModifyResult.added = ["/qux", "/foo", "/bar", "/baz"] ∧
      jsGet initialGraph.dependencies "/qux" = none ∧
      (jsGet initialGraph.dependencies "/foo").isSome = true ∧
      (jsGet initialGraph.dependencies "/bar").isSome = true ∧
      (jsGet initialGraph.dependencies "/baz").isSome = true ∧
      noRemovalsB addModifyEnv.world addModifyEnv.files initialGraph = true ∧
      (∃ A M, addModifyResult.added = A ++ M ∧ (∀ p ∈ A, ¬ p ∈ M) ∧
        List.Sublist M addModifyEnv.files ∧
        (∀ p ∈ M, (∃ m, jsGet initialGraph.dependencies p = some m) ∨
          p ∈ initialGraph.entryPoints) ∧
        (∀ p ∈ addModifyResult.added, ∃ m,
          jsGet addModifyResult.graph.dependencies p = some m) ∧
        (∀ p, jsGet initialGraph.dependencies p = none →
          (∃ m, jsGet addModifyResult.graph.dependencies p = some m) →
          ¬ p ∈ initialGraph.entryPoints → p ∈ A) ∧
        (noRemovalsB addModifyEnv.world addModifyEnv.files initialGraph = true →
          ∀ p ∈ A, jsGet initialGraph.dependencies p = none)) :=
  ⟨rfl, rfl, rfl, rfl, rfl, rfl, rfl, rfl,
    traverse_added_new_before_retransformed fuel0 addModifyEnv.world
      addModifyEnv.files initialGraph addModifyResult rfl⟩

/-- Edge removal never re-creates a record: an absent path stays absent. -/
theorem removeEdge_preserves_none :
    ∀ (fuel : Nat) (st : TState) (parentPath target : Path) (st2 : TState)
      (q : Path),
      removeEdgeF fuel st parentPath target = .ok st2 →
      jsGet st.graph.dependencies q = none →
      jsGet st2.graph.dependencies q = none := by
  intro fuel
  induction fuel with
  | zero =>
    intro st parentPath target st2 q h
    simp [removeEdgeF] at h
  | succ f ih =>
    intro st parentPath target st2 q h hq
    simp only [removeEdgeF] at h
    split at h
    · cases h
      exact hq
    · next m hm =>
      split at h
      · refine foldlM_except_inv
          (P := fun s => jsGet s.graph.dependencies q = none) ?_ _ _ st2 h ?_
        · intro s b s2 hs hp
          exact ih s target b s2 q hs hp
        · show jsGet (jsDelete st.graph.dependencies target) q = none
          by_cases hqt : q = target
          · subst hqt
            exact jsGet_jsDelete_self _ _
          · rw [jsGet_jsDelete_ne _ (Ne.symm hqt)]
            exact hq
      · cases h
        have hqt : q ≠ target := by
          intro hh
          rw [hh, hm] at hq
          cases hq
        show jsGet (jsSet st.graph.dependencies target _) q = none
        rw [jsGet_jsSet_ne _ _ hqt]
        exact hq

/-- Edge removal only grows the deleted book. -/
theorem removeEdge_deleted_mono :
    ∀ (fuel : Nat) (st : TState) (parentPath target : Path) (st2 : TState)
      (q : Path),
      removeEdgeF fuel st parentPath target = .ok st2 →
      q ∈ st.delta.deleted → q ∈ st2.delta.deleted := by
  intro fuel
  induction fuel with
  | zero =>
    intro st parentPath target st2 q h
    simp [removeEdgeF] at h
  | succ f ih =>
    intro st parentPath target st2 q h hq
    simp only [removeEdgeF] at h
    split at h
    · cases h
      exact hq
    · next m hm =>
      split at h
      · refine foldlM_except_inv (P := fun s => q ∈ s.delta.deleted) ?_ _ _ st2 h ?_
        · intro s b s2 hs hp
          exact ih s target b s2 q hs hp
        · exact mem_jsSetAdd.mpr (Or.inl hq)
      · cases h
        exact hq

/-- C4: reference-counted release.  When removing the edge from
`parentPath` to a present `target`, the target is released precisely when
its inverse-dependency set becomes empty and it is not an entry point: in
that case it leaves the store and is booked deleted (and release recurses
into its children); otherwise the store keeps the record, with only the
inverse set shrunk.  The rename fixture (where `/bar` and `/baz` survive by
path identity through `/foo-renamed`) and the recursive-release fixture are
checked in the witness theorem. -/
theorem release_iff_inverse_empty_and_not_entry
    (fuel : Nat) (st : TState) (parentPath target : Path) (m : ModuleData)
    (st2 : TState)
    (h : removeEdgeF (fuel + 1) st parentPath target = .ok st2)
    (hm : jsGet st.graph.dependencies target = some m) :
    (m.inverseDependencies.erase parentPath = [] ∧
        ¬ target ∈ st.graph.entryPoints →
      jsGet st2.graph.dependencies target = none ∧
        target ∈ st2.delta.deleted) ∧
    (¬ (m.inverseDependencies.erase parentPath = [] ∧
        ¬ target ∈ st.graph.entryPoints) →
      st2 = setRecord' st target
        { m with inverseDependencies := m.inverseDependencies.erase parentPath }) := by
  simp only [removeEdgeF] at h
  split at h
  · next hm2 =>
    rw [hm] at hm2
    cases hm2
  · next m2 hm2 =>
    rw [hm] at hm2
    injection hm2 with hm2
    subst hm2
    split at h
    · next hcond =>
      constructor
      · intro _
        constructor
        · refine foldlM_except_inv
            (P := fun s => jsGet s.graph.dependencies target = none) ?_ _ _ st2 h
            (jsGet_jsDelete_self _ _)
          intro s b s2 hs hp
          exact removeEdge_preserves_none fuel s target b s2 target hs hp
        · refine foldlM_except_inv (P := fun s => target ∈ s.delta.deleted) ?_ _ _
            st2 h (mem_jsSetAdd.mpr (Or.inr rfl))
          intro s b s2 hs hp
          exact removeEdge_deleted_mono fuel s target b s2 target hs hp
      · intro hnc
        exact absurd hcond hnc
    · next hcond =>
      constructor
      · intro hc
        exact absurd hc hcond
      · intro _
        cases h
        rfl

/-- C4 witness: the rename batch returns
`added = {/bundle, /foo-renamed}` and `deleted = {/foo}` while `/bar` and
`/baz` survive because `/foo-renamed` still references them by path
identity; cutting the only entry edge releases the whole chain
`/foo, /bar, /baz` recursively; and the claim theorem instantiates on the
release of `/bar` once its last referrer `/foo` is removed. -/
theorem release_iff_inverse_empty_and_not_entry_witness :
    traverseDependencies fuel0 renameEnv.world renameEnv.files initialGraph =
        .ok renameResult ∧
      renameResult.added = ["/foo-renamed", "/bundle"] ∧
      renameResult.deleted = ["/foo"] ∧
      (jsGet renameResult.graph.dependencies "/bar").isSome = true ∧
      (jsGet renameResult.graph.dependencies "/baz").isSome = true ∧
      cutEntryEdgeResult.added = ["/bundle"] ∧
      cutEntryEdgeResult.deleted = ["/foo", "/bar", "/baz"] ∧
      barRecord.inverseDependencies = ["/foo"] ∧
      (jsGet releaseDemoState.graph.dependencies "/bar" = none ∧
        "/bar" ∈ releaseDemoState.delta.deleted) :=
  ⟨rfl, rfl, rfl, rfl, rfl, rfl, rfl, rfl,
    (release_iff_inverse_empty_and_not_entry fuel0 (emptyTState initialGraph)
        "/foo" "/bar" barRecord releaseDemoState rfl rfl).1
      ⟨by decide, by decide⟩⟩

/-- C3: the `added` and `deleted` sets of one `traverse` call are always
disjoint; in the fixture, dirtying `/baz` and removing the edge `/foo → /baz`
in the same batch books `/baz` only under `deleted`, and a dependency removed
then re-added to the same path within one batch appears in neither set.  The
concrete scenarios are checked in the witness theorem. -/
theorem traverse_added_deleted_disjoint
    (fuel : Nat) (w : World) (paths : List Path) (g : Graph)
    (r : TraverseResult)
    (h : traverseDependencies fuel w paths g = .ok r) :
    ∀ p ∈ r.added, ¬ p ∈ r.deleted := by
  unfold traverseDependencies at h
  split at h
  · next st htr =>
    injection h with h
    subst h
    obtain ⟨hent, hmod, hinv⟩ := traverse_list_step paths fuel w _ st htr
    have hi := hinv (engInv_empty g)
    intro p hp
    rcases List.mem_append.mp hp with h1 | h1
    · exact hi.addedDisj p h1
    · exact hi.modifiedDisj p (List.mem_of_mem_filter h1)
  · cases h

/-- C3 witness: in the modify-then-delete batch the released dirty path
`/baz` appears only in `deleted` (`added = [/foo]`, `deleted = [/baz]`); in
the remove-then-readd batch `/baz` appears in neither set; and the claim
theorem instantiates to the disjointness of the first result. -/
theorem traverse_added_deleted_disjoint_witness :
    traverseDependencies fuel0 modifyDeleteEnv.world modifyDeleteEnv.files
        initialGraph = .ok modifyDeleteResult ∧
      modifyDeleteResult.added = ["/foo"] ∧
      modifyDeleteResult.deleted = ["/baz"] ∧
      removeReaddResult.added = ["/foo"] ∧
      removeReaddResult.deleted = [] ∧
      (∀ p ∈ modifyDeleteResult.added, ¬ p ∈ modifyDeleteResult.deleted) :=
  ⟨rfl, rfl, rfl, rfl, rfl,
    traverse_added_deleted_disjoint fuel0 modifyDeleteEnv.world
      modifyDeleteEnv.files initialGraph modifyDeleteResult rfl⟩

/-- C5: edges are keyed by the `(dependencyName, targetPath)` pair, not by
the target path alone.  Adding a second edge `/bundle → /foo` under the name
`foo.js` at position `0` makes `/bundle`'s dependency list equal
`[(foo.js, /foo), (foo, /foo)]` in that insertion order, and subsequently
removing only the `foo.js` entry does not delete `/foo` from the graph. -/
theorem edges_keyed_by_name_and_path :
    traverseDependencies fuel0 twoEntriesEnv.world twoEntriesEnv.files
        initialGraph = .ok twoEntriesResult ∧
      twoEntriesResult.added = ["/bundle"] ∧
      twoEntriesResult.deleted = [] ∧
      (jsGet twoEntriesResult.graph.dependencies "/bundle").map
          (fun m => m.dependencies) =
        some [("foo.js", "/foo"), ("foo", "/foo")] ∧
      traverseDependencies fuel0 removeAliasEnv.world removeAliasEnv.files
        twoEntriesResult.graph = .ok removeAliasResult ∧
      removeAliasResult.deleted = [] ∧
      (jsGet removeAliasResult.graph.dependencies "/bundle").map
          (fun m => m.dependencies) = some [("foo", "/foo")] ∧
      (jsGet removeAliasResult.graph.dependencies "/foo").isSome = true :=
  ⟨rfl, rfl, rfl, rfl, rfl, rfl, rfl, rfl⟩

/-- C6: when a collaborator error aborts a traversal the caller-visible
graph has not advanced, so a subsequent call to `traverse` with the same
inputs over an unchanged collaborator world rejects with the same failure. -/
theorem failed_traverse_replays_same_error
    (fuel : Nat) (w : World) (paths : List Path) (g : Graph) (e : Fail)
    (h : (traverseCall fuel w paths g).2 = .error e) :
    (traverseCall fuel w paths (traverseCall fuel w paths g).1).2 =
      .error e := by
  have hE : ∀ e2, traverseDependencies fuel w paths g = .error e2 →
      traverseCall fuel w paths g = (g, .error e2) := by
    intro e2 he
    unfold traverseCall
    rw [he]
  have hsplit : traverseDependencies fuel w paths g = .error e := by
    unfold traverseCall at h
    split at h
    · simp at h
    · next e2 htr =>
      simp only [Except.error.injEq] at h
      rw [h] at htr
      exact htr
  rw [hE e hsplit]
  show (traverseCall fuel w paths g).2 = .error e
  rw [hE e hsplit]

/-- C6 witness: with `/bar` deleted from the collaborator world, two
consecutive calls to `traverse(['/foo'])` both reject with the same
resolution-failure kind. -/
theorem failed_traverse_replays_same_error_witness :
    (traverseCall fuel0 errorEnv.world ["/foo"] initialGraph).2 =
        .error (.resolution "/foo" "bar") ∧
      (traverseCall fuel0 errorEnv.world ["/foo"]
          (traverseCall fuel0 errorEnv.world ["/foo"] initialGraph).1).2 =
        .error (.resolution "/foo" "bar") :=
  ⟨rfl, failed_traverse_replays_same_error fuel0 errorEnv.world ["/foo"]
    initialGraph (.resolution "/foo" "bar") rfl⟩

/-- C7: a collaborator error during `initialTraverseDependencies` aborts the
call with that error and leaves the graph empty: no partially-built state is
observable to the caller after a failed initial traversal. -/
theorem failed_initial_traverse_leaves_graph_empty
    (fuel : Nat) (w : World) (g : Graph) (e : Fail)
    (hg : g.dependencies = [])
    (h : (initialTraverseDependencies fuel w g).2 = .error e) :
    (initialTraverseDependencies fuel w g).1.dependencies = [] := by
  unfold initialTraverseDependencies at h ⊢
  split at h
  · simp at h
  · exact hg

/-- C7 witness: with `/bar` deleted from the collaborator world, the initial
traversal from the empty fixture graph rejects with the resolution failure
and the caller-visible graph stays empty. -/
theorem failed_initial_traverse_leaves_graph_empty_witness :
    baseGraph.dependencies = [] ∧
      (initialTraverseDependencies fuel0 errorEnv.world baseGraph).2 =
        .error (.resolution "/foo" "bar") ∧
      (initialTraverseDependencies fuel0 errorEnv.world baseGraph).1.dependencies
        = [] :=
  ⟨rfl, rfl, failed_initial_traverse_leaves_graph_empty fuel0 errorEnv.world
    baseGraph (.resolution "/foo" "bar") rfl rfl⟩

/-- C8: `reorderGraph` rewrites the insertion order of `graph.dependencies`
to the depth-first pre-order from the entry points in entry-point order,
visiting children in dependency order, skipping already-visited records
(here `/2`, reached first through `/1`), and dropping records unreachable
from any entry (here `/zz`): on the reorder-test fixture the key order
becomes `[/a, /0, /1, /2, /b, /3]`. -/
theorem reorder_rewrites_to_dfs_preorder :
    (reorderGraph reorderFixture).dependencies.map (fun e => e.1) =
        ["/a", "/0", "/1", "/2", "/b", "/3"] ∧
      (reorderGraph reorderFixtureUnreachable).dependencies.map (fun e => e.1) =
        ["/a", "/0", "/1", "/2", "/b", "/3"] := by
  constructor
  · rfl
  · rfl

/-- C9: `reorderGraph` is idempotent on every graph — applying it twice
yields the same store as applying it once (even as full records, hence in
particular by key order), including graphs holding records unreachable from
every entry point, which are dropped by the first application. -/
theorem reorder_idempotent (g : Graph) :
    reorderGraph (reorderGraph g) = reorderGraph g := by
  rw [reorderGraph_eq (reorderGraph g), reorderGraph_eq g]
  simp [dfsAux_idem]

end Metro
